import Mathlib

/-!
# Verification development for mlpack / FASTlib fragments

Shallow embedding of

* `proximity::MakeGenMetricTree` (`gen_metric_tree.h`),
* the driver `main` of `max_ip_main.cpp`,
* the single-tree, dual-tree and brute-force search behind `MaxIP::Search`, modelled from
  the specification (the class itself is in `max_ip.hpp`),
* `core::table::DensePoint` (`dense_point.h`),
* the worker loop `OGDK::OgdKThread` and `OGDK::Learn` (`opt_ogd_k.h`).

Definitions come first, theorems afterwards.
-/

set_option autoImplicit false

/-! ## gen_metric_tree.h -/

namespace proximity

/-- Ways in which a build can stop without returning a root node.  `InvalidInput` is the
error named by the specification; `NullDereference` and `IndexOutOfRange` are the two ways
the body of `MakeGenMetricTree` itself can go wrong (`(*old_from_new)[i]` through a null
pointer, or an `ArrayList` subscript outside `[0, size)`). -/
inductive Fault where
  | InvalidInput
  | NullDereference
  | IndexOutOfRange
  deriving DecidableEq, Repr

/-- The `Matrix` of FASTlib: column-major, every column is one point. -/
structure Matrix (α : Type) where
  n_rows : Nat
  cols : List (List α)
  deriving DecidableEq, Repr

/-- Number of columns, `Matrix::n_cols()`. -/
def Matrix.n_cols {α : Type} (m : Matrix α) : Nat := m.cols.length

/-- The part of a tree node that `MakeGenMetricTree` touches: the index range set by
`Init(begin, count)`, the length of the bound centre set by `bound().center().Init(n_rows)`,
and the children that the partitioning step may attach. -/
inductive TMetricTree where
  | leaf (begin_ count_ center_len : Nat)
  | inner (begin_ count_ center_len : Nat) (left right : TMetricTree)
  deriving DecidableEq, Repr

/-- Result of `new TMetricTree()`. -/
def TMetricTree.new : TMetricTree := .leaf 0 0 0

/-- Node initialisation `node->Init(begin, count)`. -/
def TMetricTree.Init : TMetricTree → Nat → Nat → TMetricTree
  | .leaf _ _ c, b, n => .leaf b n c
  | .inner _ _ c l r, b, n => .inner b n c l r

/-- Centre allocation `node->bound().center().Init(n_rows)`. -/
def TMetricTree.centerInit : TMetricTree → Nat → TMetricTree
  | .leaf b n _, d => .leaf b n d
  | .inner b n _ l r, d => .inner b n d l r

/-- First index of the node's range, `begin()`. -/
def TMetricTree.begin_ : TMetricTree → Nat
  | .leaf b _ _ => b
  | .inner b _ _ _ _ => b

/-- Number of points of the node's range, `count()`. -/
def TMetricTree.count_ : TMetricTree → Nat
  | .leaf _ n _ => n
  | .inner _ n _ _ _ => n

/-- Allocation `ArrayList<index_t>::Init(n)`: `n` cells whose contents are not yet
meaningful (modelled as zero). -/
def ArrayList.Init (n : Nat) : List Nat := List.replicate n 0

/-- The loop `for (i = 0; i < n; i++) (*old_from_new)[i] = i;`. -/
def fillIdentity (a : List Nat) (n : Nat) : List Nat :=
  (List.range n).foldl (fun acc i => acc.set i i) a

/-- Everything the partitioning step can change: the matrix (passed by reference), the
node, and the cells behind `old_from_new_ptr` (`none` when the pointer is null). -/
structure SplitState (α : Type) where
  matrix : Matrix α
  node : TMetricTree
  old_from_new : Option (List Nat)

/-- Signature of `tree_gen_metric_tree_private::SplitGenMetricTree`
(`gen_metric_tree_impl.h`), called as `(matrix, node, leaf_size, old_from_new_ptr)`. -/
abbrev SplitFn (α : Type) := Matrix α → TMetricTree → Int → Option (List Nat) → SplitState α

/-- What the caller holds after `MakeGenMetricTree` returns a node. -/
structure BuildResult (α : Type) where
  node : TMetricTree
  matrix : Matrix α
  old_from_new : Option (List Nat)
  new_from_old : Option (List Nat)

/-- One iteration `(*new_from_old)[(*old_from_new)[i]] = i` of the closing loop. -/
def newFromOldStep (old_from_new : Option (List Nat)) (acc : List Nat) (i : Nat) :
    Except Fault (List Nat) :=
  match old_from_new with
  | none => .error .NullDereference
  | some ofn =>
    match ofn[i]? with
    | none => .error .IndexOutOfRange
    | some j => if j < acc.length then .ok (acc.set j i) else .error .IndexOutOfRange

/-- The loop `for (i = 0; i < n; i++) (*new_from_old)[(*old_from_new)[i]] = i;`. -/
def fillNewFromOld (old_from_new : Option (List Nat)) (n : Nat) : Except Fault (List Nat) :=
  (List.range n).foldlM (newFromOldStep old_from_new) (ArrayList.Init n)

/-- Embedding of `MakeGenMetricTree`.  The two booleans say whether the caller passed a
non-null `old_from_new` / `new_from_old`; `split` is the partitioning step. -/
def MakeGenMetricTree {α : Type} (split : SplitFn α) (matrix : Matrix α) (leaf_size : Int)
    (old_from_new new_from_old : Bool) : Except Fault (BuildResult α) :=
  let node := TMetricTree.new
  let old_from_new_ptr : Option (List Nat) :=
    if old_from_new then
      some (fillIdentity (ArrayList.Init matrix.n_cols) matrix.n_cols)
    else
      none
  let node := node.Init 0 matrix.n_cols
  let node := node.centerInit matrix.n_rows
  let s := split matrix node leaf_size old_from_new_ptr
  if new_from_old then
    match fillNewFromOld s.old_from_new s.matrix.n_cols with
    | .error e => .error e
    | .ok nfo => .ok ⟨s.node, s.matrix, s.old_from_new, some nfo⟩
  else
    .ok ⟨s.node, s.matrix, s.old_from_new, none⟩

/-- Exchange of the entries at positions `i` and `j` of a list. -/
def swapAt {β : Type} (l : List β) (i j : Nat) : List β :=
  match l[i]?, l[j]? with
  | some a, some b => (l.set i b).set j a
  | _, _ => l

/-- A sequence of exchanges, applied left to right. -/
def applySwaps {β : Type} (swaps : List (Nat × Nat)) (l : List β) : List β :=
  swaps.foldl (fun acc p => swapAt acc p.1 p.2) l

/-- Modelled from the spec: the effect of a partitioning step on the matrix and on
`old_from_new` (section 4.1: point columns are swapped physically and the mapping is updated
consistently); the body of `SplitGenMetricTree` is in `gen_metric_tree_impl.h`, which is not
among the sources.  The given column exchanges are performed on the matrix and each is
mirrored on `old_from_new` when that pointer is non-null; the node is left as it is. -/
def splitBySwaps {α : Type} (swaps : List (Nat × Nat)) : SplitFn α :=
  fun matrix node _ ofn =>
    ⟨⟨matrix.n_rows, applySwaps swaps matrix.cols⟩, node, ofn.map (applySwaps swaps)⟩

/-- The partitioning step only exchanges entries of `old_from_new` (and does not change the
number of columns of the matrix), on the call made by `MakeGenMetricTree`. -/
def OnlySwapsMapping {α : Type} (split : SplitFn α) (matrix : Matrix α) (leaf_size : Int) :
    Prop :=
  ∃ swaps : List (Nat × Nat),
    (∀ p ∈ swaps, p.1 < matrix.n_cols ∧ p.2 < matrix.n_cols) ∧
    (split matrix ((TMetricTree.new.Init 0 matrix.n_cols).centerInit matrix.n_rows) leaf_size
        (some (fillIdentity (ArrayList.Init matrix.n_cols) matrix.n_cols))).old_from_new
      = some (applySwaps swaps (fillIdentity (ArrayList.Init matrix.n_cols) matrix.n_cols)) ∧
    (split matrix ((TMetricTree.new.Init 0 matrix.n_cols).centerInit matrix.n_rows) leaf_size
        (some (fillIdentity (ArrayList.Init matrix.n_cols) matrix.n_cols))).matrix.n_cols
      = matrix.n_cols

/-- The partitioning step applies every column exchange to the matrix and to `old_from_new`
together, on the call made by `MakeGenMetricTree`. -/
def SwapsTogether {α : Type} (split : SplitFn α) (matrix : Matrix α) (leaf_size : Int) :
    Prop :=
  ∃ swaps : List (Nat × Nat),
    (∀ p ∈ swaps, p.1 < matrix.n_cols ∧ p.2 < matrix.n_cols) ∧
    (split matrix ((TMetricTree.new.Init 0 matrix.n_cols).centerInit matrix.n_rows) leaf_size
        (some (fillIdentity (ArrayList.Init matrix.n_cols) matrix.n_cols))).old_from_new
      = some (applySwaps swaps (fillIdentity (ArrayList.Init matrix.n_cols) matrix.n_cols)) ∧
    (split matrix ((TMetricTree.new.Init 0 matrix.n_cols).centerInit matrix.n_rows) leaf_size
        (some (fillIdentity (ArrayList.Init matrix.n_cols) matrix.n_cols))).matrix.cols
      = applySwaps swaps matrix.cols

/-- The transposition of `i` and `j`, as a function on indices. -/
def transp (i j k : Nat) : Nat := if k = i then j else if k = j then i else k

/-- Index function of a sequence of exchanges: position `k` of the result holds what was at
position `permOf swaps k` before. -/
def permOf : List (Nat × Nat) → Nat → Nat
  | [], k => k
  | p :: ps, k => transp p.1 p.2 (permOf ps k)

/-- Inverse of `permOf`. -/
def invOf : List (Nat × Nat) → Nat → Nat
  | [], k => k
  | p :: ps, k => invOf ps (transp p.1 p.2 k)

end proximity

/-! ## max_ip_main.cpp -/

namespace maxip

/-- An `arma::mat`: `n_rows` and the list of columns (one point per column). -/
structure Mat (R : Type) where
  n_rows : Nat
  cols : List (List R)
  deriving DecidableEq, Repr

/-- Number of columns, `n_cols`. -/
def Mat.n_cols {R : Type} (m : Mat R) : Nat := m.cols.length

/-- Number of elements, `n_elem`. -/
def Mat.n_elem {R : Type} (m : Mat R) : Nat := m.n_rows * m.n_cols

/-- A default-constructed `arma::mat` (0 x 0). -/
def Mat.empty {R : Type} : Mat R := ⟨0, []⟩

/-- Command line of the program together with what `data::Load` reads: the value of the
`int` parameter `k`, the two flags, the reference matrix, the query matrix when
`--query_file` is present, and whether the two output files were asked for. -/
structure Input (R : Type) where
  k : Int
  naive : Bool
  single : Bool
  referenceData : Mat R
  query_file : Option (Mat R)
  products_file : Bool
  indices_file : Bool

/-- The conversion `const size_t k = CLI::GetParam<int>("k")` (64-bit `size_t`). -/
def size_t_of_int (k : Int) : Nat := (k % (2 ^ 64 : Int)).toNat

/-- Observable steps of a run, in program order. -/
inductive Event (R : Type) where
  | loadReference
  | fatalInvalidK (k n_cols : Nat)
  | loadQuery
  | infoUsingReference
  | warnSingleIgnored
  | constructReferenceOnly (referenceData : Mat R) (single naive : Bool)
  | constructWithQuery (referenceData queryData : Mat R) (single naive : Bool)
  | search (k : Nat)
  | saveProducts
  | saveIndices
  deriving DecidableEq, Repr

/-- Modelled from the spec: `Log::Fatal` belongs to the mlpack core, which is not among the
sources; a fatal input-validation error is reported immediately and ends the run, so the
trace stops at the `fatalInvalidK` event. -/
def LogFatal {R : Type} (trace : List (Event R)) (k n_cols : Nat) : List (Event R) :=
  trace ++ [Event.fatalInvalidK k n_cols]

/-- Embedding of `main`: the trace of observable steps of one run. -/
def main {R : Type} (inp : Input R) : List (Event R) :=
  let k : Nat := size_t_of_int inp.k
  let naive := inp.naive
  let single := inp.single
  let referenceData := inp.referenceData
  let t : List (Event R) := [Event.loadReference]
  -- Sanity check on k value.
  if k > referenceData.n_cols then
    LogFatal t k referenceData.n_cols
  else
    -- Load the query matrix, if we can.
    let queryData : Mat R :=
      match inp.query_file with
      | some q => q
      | none => Mat.empty
    let t := t ++ (match inp.query_file with
      | some _ => [Event.loadQuery]
      | none => [Event.infoUsingReference])
    -- Naive mode overrides single mode.
    let t := t ++ (if naive && single then [Event.warnSingleIgnored] else [])
    -- Construct MaxIP object.
    let t := t ++
      (if queryData.n_elem = 0 then
        [Event.constructReferenceOnly referenceData (single && !naive) naive, Event.search k]
      else
        [Event.constructWithQuery referenceData queryData (single && !naive) naive,
          Event.search k])
    -- Save output, if we were asked to.
    let t := t ++ (if inp.products_file then [Event.saveProducts] else [])
    t ++ (if inp.indices_file then [Event.saveIndices] else [])

/-- The query matrix the program works with: the loaded one, or the default-constructed
empty matrix when `--query_file` is absent. -/
def queryDataOf {R : Type} (inp : Input R) : Mat R :=
  match inp.query_file with
  | some q => q
  | none => Mat.empty

/-- The event is the construction of a `MaxIP` object. -/
def Event.isConstruct {R : Type} : Event R → Bool
  | .constructReferenceOnly _ _ _ => true
  | .constructWithQuery _ _ _ _ => true
  | _ => false

/-- The event is a call of `MaxIP::Search`. -/
def Event.isSearch {R : Type} : Event R → Bool
  | .search _ => true
  | _ => false

/-- The event is the fatal "Invalid k" report. -/
def Event.isFatalInvalidK {R : Type} : Event R → Bool
  | .fatalInvalidK _ _ => true
  | _ => false

/-- The `(singleMode, naive)` arguments handed to the `MaxIP` constructor, if the event is
a construction. -/
def Event.modeArgs {R : Type} : Event R → Option (Bool × Bool)
  | .constructReferenceOnly _ s n => some (s, n)
  | .constructWithQuery _ _ s n => some (s, n)
  | _ => none

end maxip

/-! ## MaxIP search (max_ip.hpp), modelled from the specification -/

namespace maxip

/-- Modelled from the spec: a SpaceTree over the reordered point set (section 3 and 4.1;
the tree code is not among the sources).  A leaf holds the points of its range, each with
its original index; an internal node has two children whose ranges partition its own. -/
inductive Tree (P : Type) where
  | leaf (points : List (Nat × P))
  | node (left right : Tree P)

/-- Modelled from the spec: the points in the range of a node, with their original
indices. -/
def Tree.points {P : Type} : Tree P → List (Nat × P)
  | .leaf ps => ps
  | .node l r => l.points ++ r.points

/-- Modelled from the spec: number of nodes of a tree. -/
def Tree.size {P : Type} : Tree P → Nat
  | .leaf _ => 1
  | .node l r => l.size + r.size + 1

/-- Modelled from the spec: the SearchStrategy of section 4.5 for a similarity task
(`MaxIP`, whose class is in `max_ip.hpp`, not among the sources): the number `k` of
products to retain, the point-to-point score (the kernel), the bound of the score between a
query point and a node, and the bound between a query node and a reference node. -/
structure Strategy (P S : Type) where
  k : Nat
  Score : P → P → S
  Bound : P → Tree P → S
  NodeBound : Tree P → Tree P → S

/-- Modelled from the spec: order of candidate entries `(score, original index)`, best
first: larger score, ties broken by smaller original index (section 4.3, Result). -/
def better {S : Type} [LinearOrder S] (a b : S × Nat) : Prop :=
  b.1 < a.1 ∨ (a.1 = b.1 ∧ a.2 ≤ b.2)

instance {S : Type} [LinearOrder S] : DecidableRel (better : S × Nat → S × Nat → Prop) :=
  fun a b => inferInstanceAs (Decidable (b.1 < a.1 ∨ (a.1 = b.1 ∧ a.2 ≤ b.2)))

/-- Modelled from the spec: candidate-list update rule: the entry is put at its place in
the list ordered best-to-worst and the list is cut back to `k` entries (section 3,
SearchStrategy state). -/
def insertCandidate {S : Type} [LinearOrder S] (k : Nat) (x : S × Nat) (c : List (S × Nat)) :
    List (S × Nat) :=
  (List.orderedInsert better x c).take k

/-- Modelled from the spec: the current pruning threshold, the score of the worst entry of
a candidate list that holds `k` entries; a list with fewer entries gives no threshold. -/
def threshold {S : Type} (k : Nat) (c : List (S × Nat)) : Option S :=
  if c.length < k then none else c.getLast?.map Prod.fst

/-- Modelled from the spec: the prune test: a node whose bound is below the threshold
cannot improve the candidate list (section 4.3).  A bound equal to the threshold does not
prune, since an entry of equal score and smaller index would displace the worst entry. -/
def cannotImprove {S : Type} [LinearOrder S] (k : Nat) (bound : S) (c : List (S × Nat)) :
    Bool :=
  match threshold k c with
  | none => false
  | some w => decide (bound < w)

/-- Modelled from the spec: leaf processing: every point of the leaf is scored against the
query and offered to the candidate list. -/
def processLeaf {P S : Type} [LinearOrder S] (st : Strategy P S) (q : P)
    (ps : List (Nat × P)) (c : List (S × Nat)) : List (S × Nat) :=
  ps.foldl (fun c x => insertCandidate st.k (st.Score q x.2, x.1) c) c

/-- Modelled from the spec: single-tree traversal from a node (section 4.3): prune test,
leaf processing, and recursion into both children, the more promising one first. -/
def singleTraverse {P S : Type} [LinearOrder S] (st : Strategy P S) (q : P) :
    Tree P → List (S × Nat) → List (S × Nat)
  | .leaf ps, c =>
    if cannotImprove st.k (st.Bound q (.leaf ps)) c then c else processLeaf st q ps c
  | .node l r, c =>
    if cannotImprove st.k (st.Bound q (.node l r)) c then c
    else if st.Bound q r ≤ st.Bound q l then
      singleTraverse st q r (singleTraverse st q l c)
    else
      singleTraverse st q l (singleTraverse st q r c)

/-- Modelled from the spec: single-tree search of one query point, starting at the root
with an empty candidate list. -/
def singleTreeSearch {P S : Type} [LinearOrder S] (st : Strategy P S) (reference : Tree P)
    (q : P) : List (S × Nat) :=
  singleTraverse st q reference []

/-- Modelled from the spec: exhaustive brute-force search of one query point: every
reference point is scored and offered to the candidate list. -/
def bruteForceSearch {P S : Type} [LinearOrder S] (st : Strategy P S)
    (reference : List (Nat × P)) (q : P) : List (S × Nat) :=
  processLeaf st q reference []

/-- Modelled from the spec: dual-tree prune test (section 4.4): the pair is pruned when the
bound between the two nodes is below the threshold of every query point of the query
node. -/
def cannotImprovePair {P S : Type} [LinearOrder S] (st : Strategy P S) (qn rn : Tree P)
    (σ : Nat → List (S × Nat)) : Bool :=
  qn.points.all (fun q => cannotImprove st.k (st.NodeBound qn rn) (σ q.1))

/-- Modelled from the spec: dual-tree base case: every (query point, reference point) pair
of the two leaves is scored. -/
def baseCase {P S : Type} [LinearOrder S] (st : Strategy P S) (qs ps : List (Nat × P))
    (σ : Nat → List (S × Nat)) : Nat → List (S × Nat) :=
  qs.foldl (fun σ q => Function.update σ q.1 (processLeaf st q.2 ps (σ q.1))) σ

/-- Selection of a child by a flag. -/
def pick {P : Type} (b : Bool) (l r : Tree P) : Tree P := if b then r else l

/-- Modelled from the spec: dual-tree traversal of a pair of nodes (section 4.4): prune
test; base case on two leaves; recursion into the internal side when the other is a leaf;
recursion into the four child combinations, tightest bound first, when both are
internal. -/
def dualTraverse {P S : Type} [LinearOrder S] (st : Strategy P S) :
    Tree P → Tree P → (Nat → List (S × Nat)) → Nat → List (S × Nat)
  | .leaf qs, .leaf ps, σ =>
    if cannotImprovePair st (.leaf qs) (.leaf ps) σ then σ else baseCase st qs ps σ
  | .leaf qs, .node rl rr, σ =>
    if cannotImprovePair st (.leaf qs) (.node rl rr) σ then σ
    else if st.NodeBound (.leaf qs) rr ≤ st.NodeBound (.leaf qs) rl then
      dualTraverse st (.leaf qs) rr (dualTraverse st (.leaf qs) rl σ)
    else
      dualTraverse st (.leaf qs) rl (dualTraverse st (.leaf qs) rr σ)
  | .node ql qr, .leaf ps, σ =>
    if cannotImprovePair st (.node ql qr) (.leaf ps) σ then σ
    else if st.NodeBound qr (.leaf ps) ≤ st.NodeBound ql (.leaf ps) then
      dualTraverse st qr (.leaf ps) (dualTraverse st ql (.leaf ps) σ)
    else
      dualTraverse st ql (.leaf ps) (dualTraverse st qr (.leaf ps) σ)
  | .node ql qr, .node rl rr, σ =>
    if cannotImprovePair st (.node ql qr) (.node rl rr) σ then σ
    else
      (List.insertionSort
          (fun a b : Bool × Bool =>
            st.NodeBound (pick b.1 ql qr) (pick b.2 rl rr)
              ≤ st.NodeBound (pick a.1 ql qr) (pick a.2 rl rr))
          [(false, false), (false, true), (true, false), (true, true)]).foldl
        (fun σ c => dualTraverse st (pick c.1 ql qr) (pick c.2 rl rr) σ) σ
termination_by qn rn => qn.size + rn.size
decreasing_by
  all_goals simp_wf
  all_goals (try simp only [Tree.size, pick])
  all_goals (try split_ifs)
  all_goals omega

/-- Modelled from the spec: dual-tree search: the traversal starts at the pair of roots with
every candidate list empty. -/
def dualTreeSearch {P S : Type} [LinearOrder S] (st : Strategy P S) (query reference : Tree P) :
    Nat → List (S × Nat) :=
  dualTraverse st query reference (fun _ => [])

/-- Scores of a list of indexed reference points against a query point. -/
def scored {P S : Type} (st : Strategy P S) (q : P) (ps : List (Nat × P)) : List (S × Nat) :=
  ps.map (fun x => (st.Score q x.2, x.1))

/-- The top-k result set of a list of scored entries: the `k` best, best first. -/
def topK {S : Type} [LinearOrder S] (k : Nat) (l : List (S × Nat)) : List (S × Nat) :=
  (List.insertionSort better l).take k

/-- Soundness of the point-to-node bound: no point of a node scores above the bound. -/
def BoundSound {P S : Type} [LinearOrder S] (st : Strategy P S) : Prop :=
  ∀ (q : P) (t : Tree P) (x : Nat × P), x ∈ t.points → st.Score q x.2 ≤ st.Bound q t

/-- Soundness of the node-to-node bound: no pair of points of the two nodes scores above
the bound. -/
def NodeBoundSound {P S : Type} [LinearOrder S] (st : Strategy P S) : Prop :=
  ∀ (qn rn : Tree P) (q x : Nat × P), q ∈ qn.points → x ∈ rn.points →
    st.Score q.2 x.2 ≤ st.NodeBound qn rn

/-- Reference points accounted for, per query index, after the query indices `I` have met
the reference points `R`. -/
def bump {P : Type} (I : List Nat) (R : List (Nat × P)) (seen : Nat → List (Nat × P)) :
    Nat → List (Nat × P) :=
  fun i => if i ∈ I then R ++ seen i else seen i

/-- The candidate list of every query of `Q` is the top-k list of the reference points
accounted for so far. -/
def Tracks {P S : Type} [LinearOrder S] (st : Strategy P S) (σ : Nat → List (S × Nat))
    (seen : Nat → List (Nat × P)) (Q : List (Nat × P)) : Prop :=
  ∀ x ∈ Q, σ x.1 = topK st.k (scored st x.2 (seen x.1))

/-- Modelled from the spec: `MaxIP::Search` (class `MaxIP` of `max_ip.hpp`, not among the
sources), with the two mode arguments of its constructor: naive mode scores every reference
point for every query point, single-tree mode runs one single-tree search per query point,
and otherwise the dual-tree search is run.  The result gives, for each query index, the
candidate list of `(score, original reference index)` entries, best first. -/
def Search {P S : Type} [LinearOrder S] (st : Strategy P S) (singleMode naive : Bool)
    (reference query : Tree P) : List (Nat × List (S × Nat)) :=
  if naive then
    query.points.map (fun q => (q.1, bruteForceSearch st reference.points q.2))
  else if singleMode then
    query.points.map (fun q => (q.1, singleTreeSearch st reference q.2))
  else
    query.points.map (fun q => (q.1, dualTreeSearch st query reference q.1))

/-- Modelled from the spec: the linear kernel (inner product) used by the program. -/
def LinearKernel.Evaluate (a b : List Int) : Int := (List.zipWith (· * ·) a b).sum

/-- Largest entry of a list of scores (0 for the empty list, and never below 0). -/
def maxOf (l : List Int) : Int := l.foldr max 0

/-- A strategy for the linear kernel whose bounds are the largest score over the points of
the node, respectively over the pairs of points of the two nodes. -/
def linearStrategy (k : Nat) : Strategy (List Int) Int where
  k := k
  Score := LinearKernel.Evaluate
  Bound := fun q t => maxOf (t.points.map (fun x => LinearKernel.Evaluate q x.2))
  NodeBound := fun qn rn =>
    maxOf (qn.points.flatMap (fun q => rn.points.map (fun x => LinearKernel.Evaluate q.2 x.2)))

end maxip

/-! ## dense_point.h -/

namespace core.table

/-- Flat memory of `double` cells.  `brk` is the next address handed out by `new[]` /
`Allocate`; `freed` lists the pointers given to `delete[]` / `Deallocate`, most recent
first.  Address `0` is the null pointer.  Accesses are not trapped: the embedding follows
the control flow of the class and records what it deallocates. -/
structure Memory (α : Type) where
  cell : Nat → α
  brk : Nat
  freed : List Nat

/-- Store `v` at address `a`. -/
def Memory.write {α : Type} (m : Memory α) (a : Nat) (v : α) : Memory α :=
  { m with cell := fun x => if x = a then v else m.cell x }

/-- Allocation of `n` cells (`new double[n]`, or `global_m_file_->Allocate`): the new block
starts at `brk`. -/
def Memory.allocate {α : Type} (m : Memory α) (n : Nat) : Nat × Memory α :=
  (m.brk, { m with brk := m.brk + n + 1 })

/-- Deallocation (`delete[] p`, or `global_m_file_->Deallocate(p)`). -/
def Memory.deallocate {α : Type} (m : Memory α) (p : Nat) : Memory α :=
  { m with freed := p :: m.freed }

/-- State of `DenseConstPoint`: `ptr_` and `n_rows_`. -/
structure DenseConstPoint where
  ptr_ : Nat
  n_rows_ : Nat
  deriving DecidableEq, Repr

/-- State of `DensePoint`: the inherited `ptr_`, `n_rows_`, and `is_alias_`. -/
structure DensePoint where
  ptr_ : Nat
  n_rows_ : Nat
  is_alias_ : Bool
  deriving DecidableEq, Repr

/-- The accessor `DenseConstPoint::operator[]`. -/
def DenseConstPoint.get {α : Type} (m : Memory α) (p : DenseConstPoint) (i : Nat) : α :=
  m.cell (p.ptr_ + i)

/-- The member `DensePoint::Reset`. -/
def DensePoint.Reset (_ : DensePoint) : DensePoint := ⟨0, 0, false⟩

/-- The private member `DensePoint::DestructPtr_`. -/
def DensePoint.DestructPtr_ {α : Type} (m : Memory α) (p : DensePoint) : Memory α :=
  if p.ptr_ ≠ 0 ∧ p.is_alias_ = false then m.deallocate p.ptr_ else m

/-- The destructor `~DensePoint`. -/
def DensePoint.destroy {α : Type} (m : Memory α) (p : DensePoint) : Memory α × DensePoint :=
  (p.DestructPtr_ m, p.Reset)

/-- The member `DensePoint::Init(int length_in)`. -/
def DensePoint.Init {α : Type} (m : Memory α) (_ : DensePoint) (length_in : Nat) :
    Memory α × DensePoint :=
  let (a, m) := m.allocate length_in
  (m, ⟨a, length_in, false⟩)

/-- The call `memcpy(dst, src, sizeof(double) * n)`. -/
def memcpy {α : Type} (m : Memory α) (dst src n : Nat) : Memory α :=
  { m with cell := fun x => if dst ≤ x ∧ x < dst + n then m.cell (src + (x - dst)) else m.cell x }

/-- The member `DensePoint::CopyValues`. -/
def DensePoint.CopyValues {α : Type} (m : Memory α) (p : DensePoint)
    (point_in : DenseConstPoint) : Memory α × DensePoint :=
  (memcpy m p.ptr_ point_in.ptr_ point_in.n_rows_, ⟨p.ptr_, point_in.n_rows_, false⟩)

/-- The member `DensePoint::Copy`. -/
def DensePoint.Copy {α : Type} (m : Memory α) (p : DensePoint) (point_in : DenseConstPoint) :
    Memory α × DensePoint :=
  let m := p.DestructPtr_ m
  let (a, m) := m.allocate point_in.n_rows_
  DensePoint.CopyValues m { p with ptr_ := a } point_in

/-- A loop `for (i = 0; i < n; i++) ptr_[i] = f(i, ptr_[i])`, where `f` may read the
memory as it is when iteration `i` starts. -/
def forCells {α : Type} (m : Memory α) (ptr n : Nat) (f : Memory α → Nat → α → α) :
    Memory α :=
  (List.range n).foldl (fun acc i => acc.write (ptr + i) (f acc i (acc.cell (ptr + i)))) m

/-- The member `DensePoint::SetZero`. -/
def DensePoint.SetZero {α : Type} [Zero α] (m : Memory α) (p : DensePoint) :
    Memory α × DensePoint :=
  (forCells m p.ptr_ p.n_rows_ (fun _ _ _ => 0), p)

/-- The member `DensePoint::Alias(double *ptr_in, int length_in)`. -/
def DensePoint.Alias (_ : DensePoint) (ptr_in length_in : Nat) : DensePoint :=
  ⟨ptr_in, length_in, true⟩

/-- The member `DensePoint::Add(scale_factor, point_in)`. -/
def DensePoint.Add {α : Type} [HAdd α α α] [HMul α α α] (m : Memory α) (p : DensePoint)
    (scale_factor : α) (point_in : DenseConstPoint) : Memory α × DensePoint :=
  (forCells m p.ptr_ point_in.n_rows_
    (fun acc i x => x + scale_factor * point_in.get acc i), p)

/-- The member `DensePoint::operator+=`. -/
def DensePoint.addAssign {α : Type} [HAdd α α α] (m : Memory α) (p : DensePoint)
    (point_in : DenseConstPoint) : Memory α × DensePoint :=
  (forCells m p.ptr_ point_in.n_rows_ (fun acc i x => x + point_in.get acc i), p)

/-- The member `DensePoint::operator/=`. -/
def DensePoint.divAssign {α : Type} [HDiv α α α] (m : Memory α) (p : DensePoint)
    (scale_factor : α) : Memory α × DensePoint :=
  (forCells m p.ptr_ p.n_rows_ (fun _ _ x => x / scale_factor), p)

/-- The member `DensePoint::operator*=`. -/
def DensePoint.mulAssign {α : Type} [HMul α α α] (m : Memory α) (p : DensePoint)
    (scale_factor : α) : Memory α × DensePoint :=
  (forCells m p.ptr_ p.n_rows_ (fun _ _ x => x * scale_factor), p)

/-- The operations of `DensePoint` that do not allocate. -/
inductive Op (α : Type) where
  | CopyValues (point_in : DenseConstPoint)
  | SetZero
  | Add (scale_factor : α) (point_in : DenseConstPoint)
  | addAssign (point_in : DenseConstPoint)
  | divAssign (scale_factor : α)
  | mulAssign (scale_factor : α)

/-- Effect of one non-allocating operation. -/
def Op.apply {α : Type} [Zero α] [HAdd α α α] [HMul α α α] [HDiv α α α] (m : Memory α) (p : DensePoint) :
    Op α → Memory α × DensePoint
  | .CopyValues q => p.CopyValues m q
  | .SetZero => p.SetZero m
  | .Add s q => p.Add m s q
  | .addAssign q => p.addAssign m q
  | .divAssign s => p.divAssign m s
  | .mulAssign s => p.mulAssign m s

/-- Effect of a sequence of non-allocating operations, in order. -/
def runOps {α : Type} [Zero α] [HAdd α α α] [HMul α α α] [HDiv α α α] (m : Memory α) (p : DensePoint)
    (ops : List (Op α)) : Memory α × DensePoint :=
  ops.foldl (fun s op => op.apply s.1 s.2) (m, p)

/-- The operation is `CopyValues`. -/
def Op.isCopyValues {α : Type} : Op α → Bool
  | .CopyValues _ => true
  | _ => false

end core.table

/-! ## opt_ogd_k.h -/

namespace ogdk

/-- The fields of `Learner` that steer `OgdKThread`: thread count, mini-batch size, the
method name, and the per-thread state and iteration counters. -/
structure Learner where
  n_thread_ : Nat
  mb_size_ : Nat
  opt_name_ : String
  t_state_ : List Nat
  t_n_it_ : List Nat
  deriving DecidableEq, Repr

/-- What a thread meets from outside: the answer of its `c`-th call of `GetImmedExample`
(`true`: a new example was read) and whether its `c`-th `pthread_barrier_wait` returns
(`false`: the other threads never arrive and the thread stays blocked). -/
structure Env where
  example_read : Nat → Bool
  barrier_returns : Nat → Bool

/-- Local bookkeeping of one thread: how many `GetImmedExample` calls and barrier waits it
has made. -/
structure Local where
  calls : Nat
  waits : Nat
  deriving DecidableEq, Repr

/-- How a pass of a worker through the body of `while (true)` ends, as far as the worker's
own statements go.  That a worker is ended by the `exit(1)` of another worker is not an
outcome of its own pass; it is recorded for the whole process in `World.exited`. -/
inductive Outcome where
  | next (L : Learner) (l : Local)
  | returned (L : Learner) (l : Local)
  | exited (L : Learner) (l : Local)
  | blocked (L : Learner) (l : Local)
  | unknownState (L : Learner) (l : Local)
  deriving DecidableEq, Repr

/-- The reading loop of case 0: `mb_size_` calls of `GetImmedExample`, stopping at the first
one that finds no example.  Returns whether all succeeded and the number of calls made. -/
def readBatch (env : Env) : Nat → Nat → Bool × Nat
  | 0, calls => (true, calls)
  | b + 1, calls =>
    if env.example_read calls then readBatch env b (calls + 1) else (false, calls + 1)

/-- One pass through the body of `while (true) { switch (Lp->t_state_[tid]) ... }` of
`OGDK::OgdKThread`.  The weight, bias and message vectors do not steer the control flow
and are left out. -/
def OgdKThread_iter (env : Env) (tid : Nat) (L : Learner) (l : Local) : Outcome :=
  match L.t_state_.getD tid 0 with
  | 0 =>
    -- waiting to read data
    match readBatch env L.mb_size_ l.calls with
    | (false, calls) => .returned L { l with calls := calls }
    | (true, calls) => .next { L with t_state_ := L.t_state_.set tid 1 } { l with calls := calls }
  | 1 =>
    -- predict and local update
    let L := { L with t_n_it_ := L.t_n_it_.set tid (L.t_n_it_.getD tid 0 + 1) }
    if L.opt_name_ = "kogd_str" ∨ L.opt_name_ = "kogd" then
      -- wait till all threads send their messages
      if env.barrier_returns l.waits then
        .next { L with t_state_ := L.t_state_.set tid 2 } { l with waits := l.waits + 1 }
      else
        .blocked L l
    else
      .exited L l
  | 2 =>
    -- communicate and update using received msg
    if env.barrier_returns l.waits then
      .next { L with t_state_ := L.t_state_.set tid 0 } { l with waits := l.waits + 1 }
    else
      .blocked L l
  | _ => .unknownState L l

/-- The initialisation loop of `OGDK::Learn`: for every `t < n_thread_` the state and
iteration counter of thread `t` are set to 0 before the thread is created. -/
def Learn_init (L : Learner) : Learner :=
  (List.range L.n_thread_).foldl
    (fun acc t => { acc with t_state_ := acc.t_state_.set t 0, t_n_it_ := acc.t_n_it_.set t 0 }) L

/-- The thread has run `n` complete passes of its loop from `(L, l)` and is about to start
the next one at `(L2, l2)`. -/
def OgdKThread_run (env : Env) (tid : Nat) : Nat → Learner → Local → Option (Learner × Local)
  | 0, L, l => some (L, l)
  | n + 1, L, l =>
    match OgdKThread_iter env tid L l with
    | .next L2 l2 => OgdKThread_run env tid n L2 l2
    | _ => none

/-- State of thread `tid`, `Lp->t_state_[tid]`. -/
def Learner.state (L : Learner) (tid : Nat) : Nat := L.t_state_.getD tid 0

/-- What a single pass of the loop can do from a state in `{0, 1, 2}`. -/
def PassFacts (env : Env) (tid : Nat) (L : Learner) (l : Local) : Prop :=
  (∀ L2 l2, OgdKThread_iter env tid L l = .next L2 l2 →
    L2.t_state_.length = L.t_state_.length ∧ L2.opt_name_ = L.opt_name_ ∧
    ((L.state tid = 0 ∧ L2.state tid = 1) ∨ (L.state tid = 1 ∧ L2.state tid = 2) ∨
      (L.state tid = 2 ∧ L2.state tid = 0))) ∧
  (∀ L2 l2, OgdKThread_iter env tid L l = .returned L2 l2 →
    L.state tid = 0 ∧
    ∃ c, l.calls ≤ c ∧ c < l.calls + L.mb_size_ ∧ env.example_read c = false) ∧
  (∀ L2 l2, OgdKThread_iter env tid L l = .exited L2 l2 →
    L.state tid = 1 ∧ ¬ (L.opt_name_ = "kogd_str" ∨ L.opt_name_ = "kogd")) ∧
  (∀ L2 l2, OgdKThread_iter env tid L l = .blocked L2 l2 →
    L.state tid = 1 ∨ L.state tid = 2) ∧
  (∀ L2 l2, OgdKThread_iter env tid L l ≠ .unknownState L2 l2)

/-- The shared `Learner` fields as a pass leaves them, whatever its outcome. -/
def Outcome.learner : Outcome → Learner
  | .next L _ => L
  | .returned L _ => L
  | .exited L _ => L
  | .blocked L _ => L
  | .unknownState L _ => L

/-- Where a worker stands: still in its loop, returned from `OgdKThread`, held for good at a
barrier, or returned through the "Unknown thread state number" branch. -/
inductive Status where
  | running
  | returned
  | blocked
  | unknownState
  deriving DecidableEq, Repr

/-- The process running `OGDK::Learn`: the shared `Learner`, the bookkeeping and standing of
each of the `n_thread_` workers, and, once some worker has called `exit(1)`, the index of
that worker.  `exit(1)` ends the whole process: from then on no worker runs, whatever state
it is in. -/
structure World where
  L : Learner
  locals : List Local
  status : List Status
  exited : Option Nat
  deriving DecidableEq, Repr

/-- The process after `OGDK::Learn` has initialised and created its workers. -/
def Learn_world (L : Learner) : World :=
  ⟨Learn_init L, List.replicate L.n_thread_ ⟨0, 0⟩, List.replicate L.n_thread_ .running, none⟩

/-- Worker `tid` is scheduled for one pass of its loop.  Nothing happens when the process
has been ended by `exit(1)`, when there is no such worker, or when the worker is no longer
in its loop.  A pass that reaches `exit(1)` ends the process for every worker.  Passes are
taken one at a time: a worker reads and writes only its own entries of `t_state_` and
`t_n_it_`, and its state entry is written by the last statement of a pass, so the states
met between the statements of a pass are those met at its two ends.  Barrier waits are
answered by the environment, which allows every real behaviour of the barriers. -/
def worldStep (envs : Nat → Env) (tid : Nat) (W : World) : World :=
  match W.exited with
  | some _ => W
  | none =>
    match W.status[tid]? with
    | some .running =>
      match OgdKThread_iter (envs tid) tid W.L (W.locals.getD tid ⟨0, 0⟩) with
      | .next L l => { W with L := L, locals := W.locals.set tid l }
      | .returned L l =>
        { W with L := L, locals := W.locals.set tid l, status := W.status.set tid .returned }
      | .exited L l => { W with L := L, locals := W.locals.set tid l, exited := some tid }
      | .blocked L l =>
        { W with L := L, locals := W.locals.set tid l, status := W.status.set tid .blocked }
      | .unknownState L l =>
        { W with L := L, locals := W.locals.set tid l,
                 status := W.status.set tid .unknownState }
    | _ => W

/-- The process after the workers named by the schedule have made their passes, in that
order. -/
def runWorld (envs : Nat → Env) (schedule : List Nat) (W : World) : World :=
  schedule.foldl (fun W tid => worldStep envs tid W) W

/-- What holds of the process between passes: the state array keeps its length, the method
name is the one `Learn` was given, every worker is in state 0, 1 or 2, no worker has taken
the "Unknown thread state number" branch, a worker that returned did so in state 0 after
one of the `GetImmedExample` calls it made found no example, a worker held at a barrier is
in state 1 or 2, and if the process was ended by `exit(1)` the caller was a worker in
state 1 under a method name that is neither "kogd_str" nor "kogd". -/
def WorldInv (envs : Nat → Env) (L0 : Learner) (W : World) : Prop :=
  W.L.t_state_.length = L0.t_state_.length ∧
  W.L.opt_name_ = L0.opt_name_ ∧
  (W.status.length = L0.n_thread_ ∧ W.locals.length = L0.n_thread_) ∧
  (∀ t : Nat, t < L0.n_thread_ → (W.L.state t = 0 ∨ W.L.state t = 1 ∨ W.L.state t = 2)) ∧
  (∀ t : Nat, W.status[t]? ≠ some Status.unknownState) ∧
  (∀ t : Nat, W.status[t]? = some Status.returned →
    W.L.state t = 0 ∧
    ∃ c, c < (W.locals.getD t ⟨0, 0⟩).calls ∧ (envs t).example_read c = false) ∧
  (∀ t : Nat, W.status[t]? = some Status.blocked → W.L.state t = 1 ∨ W.L.state t = 2) ∧
  (∀ t : Nat, W.exited = some t →
    t < L0.n_thread_ ∧ W.L.state t = 1 ∧
    ¬ (L0.opt_name_ = "kogd_str" ∨ L0.opt_name_ = "kogd"))

/-- A sample environment, the same for every worker: one example is available, and every
barrier wait returns. -/
def sampleEnvs : Nat → Env := fun _ => ⟨fun c => decide (c < 1), fun _ => true⟩

/-- A sample `Learner`: two workers, mini-batches of one example, method "kogd", state and
iteration arrays of length two with arbitrary contents. -/
def sampleLearner : Learner := ⟨2, 1, "kogd", [9, 9], [9, 9]⟩

end ogdk

/-! # Theorems -/

/-! ## gen_metric_tree.h : auxiliary facts -/

namespace proximity

theorem transp_lt {n i j k : Nat} (hi : i < n) (hj : j < n) (hk : k < n) :
    transp i j k < n := by
  unfold transp; split_ifs <;> assumption

theorem transp_transp (i j k : Nat) : transp i j (transp i j k) = k := by
  unfold transp; split_ifs <;> simp_all

theorem permOf_lt {n : Nat} :
    ∀ (swaps : List (Nat × Nat)), (∀ p ∈ swaps, p.1 < n ∧ p.2 < n) →
      ∀ k, k < n → permOf swaps k < n
  | [], _, k, hk => hk
  | p :: ps, h, k, hk => by
    have hp := h p (List.mem_cons_self _ _)
    exact transp_lt hp.1 hp.2
      (permOf_lt ps (fun q hq => h q (List.mem_cons_of_mem _ hq)) k hk)

theorem invOf_lt {n : Nat} :
    ∀ (swaps : List (Nat × Nat)), (∀ p ∈ swaps, p.1 < n ∧ p.2 < n) →
      ∀ k, k < n → invOf swaps k < n
  | [], _, k, hk => hk
  | p :: ps, h, k, hk => by
    have hp := h p (List.mem_cons_self _ _)
    exact invOf_lt ps (fun q hq => h q (List.mem_cons_of_mem _ hq)) _
      (transp_lt hp.1 hp.2 hk)

theorem permOf_invOf : ∀ (swaps : List (Nat × Nat)) (k : Nat), permOf swaps (invOf swaps k) = k
  | [], _ => rfl
  | p :: ps, k => by
    simp only [permOf, invOf]
    rw [permOf_invOf ps, transp_transp]

theorem invOf_permOf : ∀ (swaps : List (Nat × Nat)) (k : Nat), invOf swaps (permOf swaps k) = k
  | [], _ => rfl
  | p :: ps, k => by
    simp only [permOf, invOf]
    rw [transp_transp, invOf_permOf ps]

theorem length_swapAt {β : Type} (l : List β) (i j : Nat) : (swapAt l i j).length = l.length := by
  unfold swapAt
  split <;> simp

theorem getElem?_swapAt {β : Type} (l : List β) {i j : Nat} (hi : i < l.length)
    (hj : j < l.length) (k : Nat) : (swapAt l i j)[k]? = l[transp i j k]? := by
  unfold swapAt transp
  rw [List.getElem?_eq_getElem hi, List.getElem?_eq_getElem hj]
  simp only [List.getElem?_set, List.length_set]
  by_cases h1 : k = j
  · subst h1
    by_cases h2 : k = i
    · subst h2; simp [hi]
    · simp [h2, hj, hi]
  · by_cases h2 : k = i
    · subst h2; simp [Ne.symm h1, hi, hj]
    · simp [h1, h2, Ne.symm h1, Ne.symm h2]

theorem length_applySwaps {β : Type} :
    ∀ (swaps : List (Nat × Nat)) (l : List β), (applySwaps swaps l).length = l.length
  | [], _ => rfl
  | p :: ps, l => by
    show (applySwaps ps (swapAt l p.1 p.2)).length = l.length
    rw [length_applySwaps ps, length_swapAt]

theorem getElem?_applySwaps {β : Type} :
    ∀ (swaps : List (Nat × Nat)) (l : List β),
      (∀ p ∈ swaps, p.1 < l.length ∧ p.2 < l.length) →
      ∀ k, (applySwaps swaps l)[k]? = l[permOf swaps k]?
  | [], _, _, _ => rfl
  | p :: ps, l, h, k => by
    have hp := h p (List.mem_cons_self _ _)
    show (applySwaps ps (swapAt l p.1 p.2))[k]? = l[transp p.1 p.2 (permOf ps k)]?
    rw [getElem?_applySwaps ps (swapAt l p.1 p.2)
      (fun q hq => by
        rw [length_swapAt]; exact h q (List.mem_cons_of_mem _ hq)) k]
    exact getElem?_swapAt l hp.1 hp.2 _

theorem fillIdentity_aux (a : List Nat) :
    ∀ n, n ≤ a.length → fillIdentity a n = List.range n ++ a.drop n
  | 0, _ => by simp [fillIdentity]
  | n + 1, h => by
    have ih := fillIdentity_aux a n (Nat.le_of_succ_le h)
    unfold fillIdentity at ih ⊢
    rw [List.range_succ, List.foldl_append, ih]
    simp only [List.foldl_cons, List.foldl_nil]
    apply List.ext_getElem?
    intro k
    simp only [List.getElem?_set, List.length_append, List.length_range, List.length_drop,
      List.getElem?_append, List.length_singleton, List.getElem?_drop]
    by_cases hk : k = n
    · subst hk; simp; omega
    · by_cases hk2 : k < n
      · have : ¬ n = k := fun e => hk e.symm
        simp [hk2, this, Nat.lt_succ_of_lt hk2]
      · have h3 : ¬ k < n + 1 := by omega
        have : ¬ n = k := fun e => hk e.symm
        simp only [this, hk2, h3, if_false]
        congr 1; omega

theorem fillIdentity_Init (n : Nat) : fillIdentity (ArrayList.Init n) n = List.range n := by
  rw [fillIdentity_aux _ n (by simp [ArrayList.Init])]
  simp [ArrayList.Init]

end proximity

namespace proximity

/-- Loop invariant of the closing loop: after `m` iterations over a mapping whose entry at
`i` is `f i`, with `f` injective into `[0, n)`, every processed entry has been inverted. -/
theorem fillNewFromOld_aux (ofn : List Nat) (n : Nat) (f : Nat → Nat)
    (hf : ∀ i, i < n → ofn[i]? = some (f i)) (hlt : ∀ i, i < n → f i < n)
    (hinj : ∀ i j, i < n → j < n → f i = f j → i = j) :
    ∀ m, m ≤ n → ∃ acc, (List.range m).foldlM (newFromOldStep (some ofn)) (ArrayList.Init n)
        = Except.ok acc ∧ acc.length = n ∧ ∀ i, i < m → acc[f i]? = some i
  | 0, _ => ⟨ArrayList.Init n, rfl, by simp [ArrayList.Init], fun i hi => absurd hi (by omega)⟩
  | m + 1, h => by
    obtain ⟨acc, hacc, hlen, hinv⟩ := fillNewFromOld_aux ofn n f hf hlt hinj m (Nat.le_of_succ_le h)
    have hm : m < n := h
    refine ⟨acc.set (f m) m, ?_, by simp [hlen], ?_⟩
    · rw [List.range_succ, List.foldlM_append, hacc]
      show (List.foldlM (newFromOldStep (some ofn)) acc [m]) = _
      simp only [List.foldlM_cons, List.foldlM_nil, newFromOldStep, hf m hm, hlen, hlt m hm,
        if_true]
      rfl
    · intro i hi
      by_cases him : i = m
      · subst him
        rw [List.getElem?_set_self (by rw [hlen]; exact hlt i hm)]
      · have hi' : i < m := by omega
        have hne : f m ≠ f i := fun e => him (hinj i m (by omega) hm e.symm)
        rw [List.getElem?_set_ne hne]
        exact hinv i hi'

theorem fillNewFromOld_spec (ofn : List Nat) (n : Nat) (f : Nat → Nat)
    (hf : ∀ i, i < n → ofn[i]? = some (f i)) (hlt : ∀ i, i < n → f i < n)
    (hinj : ∀ i j, i < n → j < n → f i = f j → i = j) :
    ∃ nfo, fillNewFromOld (some ofn) n = Except.ok nfo ∧ nfo.length = n ∧
      ∀ i, i < n → nfo[f i]? = some i :=
  fillNewFromOld_aux ofn n f hf hlt hinj n (Nat.le_refl n)

theorem getElem?_swapped_identity (n : Nat) (swaps : List (Nat × Nat))
    (h : ∀ p ∈ swaps, p.1 < n ∧ p.2 < n) (k : Nat) (hk : k < n) :
    (applySwaps swaps (List.range n))[k]? = some (permOf swaps k) := by
  rw [getElem?_applySwaps swaps (List.range n) (by simpa using h) k]
  exact List.getElem?_range (permOf_lt swaps h k hk)

/-- **C1.**  When both mapping arrays are supplied and the partitioning step only exchanges
entries of `old_from_new` (which starts as the identity), `MakeGenMetricTree` returns a node
together with two arrays of length `N` that are mutually inverse bijections of `[0, N)`:
`new_from_old[old_from_new[i]] = i` and `old_from_new[new_from_old[j]] = j`. -/
theorem MakeGenMetricTree_mappings_inverse {α : Type} (split : SplitFn α) (matrix : Matrix α)
    (leaf_size : Int) (h : OnlySwapsMapping split matrix leaf_size) :
    ∃ r ofn nfo, MakeGenMetricTree split matrix leaf_size true true = Except.ok r ∧
      r.old_from_new = some ofn ∧ r.new_from_old = some nfo ∧
      ofn.length = matrix.n_cols ∧ nfo.length = matrix.n_cols ∧
      (∀ i, i < matrix.n_cols → ∃ j, ofn[i]? = some j ∧ nfo[j]? = some i) ∧
      (∀ j, j < matrix.n_cols → ∃ i, nfo[j]? = some i ∧ ofn[i]? = some j) := by
  obtain ⟨swaps, hsw, hofn, hcols⟩ := h
  rw [fillIdentity_Init] at hofn hcols
  have hget := getElem?_swapped_identity matrix.n_cols swaps hsw
  obtain ⟨nfo, hnfo, hlen, hinv⟩ :=
    fillNewFromOld_spec (applySwaps swaps (List.range matrix.n_cols)) matrix.n_cols
      (permOf swaps) hget (permOf_lt swaps hsw)
      (fun i j _ _ e => by
        have := congrArg (invOf swaps) e
        simpa [invOf_permOf] using this)
  refine ⟨⟨(split matrix ((TMetricTree.new.Init 0 matrix.n_cols).centerInit matrix.n_rows)
        leaf_size (some (List.range matrix.n_cols))).node,
      (split matrix ((TMetricTree.new.Init 0 matrix.n_cols).centerInit matrix.n_rows)
        leaf_size (some (List.range matrix.n_cols))).matrix,
      some (applySwaps swaps (List.range matrix.n_cols)), some nfo⟩,
    applySwaps swaps (List.range matrix.n_cols), nfo, ?_, rfl, rfl, ?_, hlen, ?_, ?_⟩
  · simp only [MakeGenMetricTree, if_true, fillIdentity_Init, hofn, hcols, hnfo]
  · rw [length_applySwaps, List.length_range]
  · intro i hi
    exact ⟨permOf swaps i, hget i hi, hinv i hi⟩
  · intro j hj
    have hij := invOf_lt swaps hsw j hj
    refine ⟨invOf swaps j, ?_, ?_⟩
    · have := hinv (invOf swaps j) hij
      rwa [permOf_invOf] at this
    · have := hget (invOf swaps j) hij
      rwa [permOf_invOf] at this

theorem onlySwapsMapping_splitBySwaps {α : Type} (swaps : List (Nat × Nat)) (matrix : Matrix α)
    (leaf_size : Int) (h : ∀ p ∈ swaps, p.1 < matrix.n_cols ∧ p.2 < matrix.n_cols) :
    OnlySwapsMapping (splitBySwaps swaps) matrix leaf_size :=
  ⟨swaps, h, rfl, by simp [splitBySwaps, Matrix.n_cols, length_applySwaps]⟩

/-- Instance of C1: three points, the partitioning step exchanges columns 0, 2 and then
1, 2. -/
theorem MakeGenMetricTree_mappings_inverse_witness :
    OnlySwapsMapping (splitBySwaps [(0, 2), (1, 2)])
        (⟨1, [[10], [20], [30]]⟩ : Matrix Nat) 1 ∧
    ∃ r ofn nfo, MakeGenMetricTree (splitBySwaps [(0, 2), (1, 2)])
        (⟨1, [[10], [20], [30]]⟩ : Matrix Nat) 1 true true = Except.ok r ∧
      r.old_from_new = some ofn ∧ r.new_from_old = some nfo ∧
      ofn.length = (⟨1, [[10], [20], [30]]⟩ : Matrix Nat).n_cols ∧
      nfo.length = (⟨1, [[10], [20], [30]]⟩ : Matrix Nat).n_cols ∧
      (∀ i, i < (⟨1, [[10], [20], [30]]⟩ : Matrix Nat).n_cols →
        ∃ j, ofn[i]? = some j ∧ nfo[j]? = some i) ∧
      (∀ j, j < (⟨1, [[10], [20], [30]]⟩ : Matrix Nat).n_cols →
        ∃ i, nfo[j]? = some i ∧ ofn[i]? = some j) :=
  have hw : OnlySwapsMapping (splitBySwaps [(0, 2), (1, 2)])
      (⟨1, [[10], [20], [30]]⟩ : Matrix Nat) 1 :=
    onlySwapsMapping_splitBySwaps _ _ _ (by decide)
  ⟨hw, MakeGenMetricTree_mappings_inverse _ _ _ hw⟩

end proximity

namespace proximity

/-- **C2.**  With `old_from_new` supplied and a partitioning step that applies every column
exchange to the matrix and to `old_from_new` together, `MakeGenMetricTree` returns, and for
every position `i` in `[0, N)` column `i` of the re-ordered matrix is column
`old_from_new[i]` of the original matrix.  The identity mapping installed before
partitioning already has this property with respect to the untouched matrix. -/
theorem MakeGenMetricTree_columns_follow_old_from_new {α : Type} (split : SplitFn α)
    (matrix : Matrix α) (leaf_size : Int) (new_from_old : Bool)
    (h : SwapsTogether split matrix leaf_size) :
    (∀ i, i < matrix.n_cols →
      ∃ j, (fillIdentity (ArrayList.Init matrix.n_cols) matrix.n_cols)[i]? = some j ∧
        j < matrix.n_cols ∧ matrix.cols[i]? = matrix.cols[j]?) ∧
    ∃ r ofn, MakeGenMetricTree split matrix leaf_size true new_from_old = Except.ok r ∧
      r.old_from_new = some ofn ∧
      ∀ i, i < matrix.n_cols →
        ∃ j, ofn[i]? = some j ∧ j < matrix.n_cols ∧ r.matrix.cols[i]? = matrix.cols[j]? := by
  obtain ⟨swaps, hsw, hofn, hcols⟩ := h
  rw [fillIdentity_Init] at hofn hcols ⊢
  refine ⟨fun i hi => ⟨i, List.getElem?_range hi, hi, rfl⟩, ?_⟩
  have hget := getElem?_swapped_identity matrix.n_cols swaps hsw
  have hn : (split matrix ((TMetricTree.new.Init 0 matrix.n_cols).centerInit matrix.n_rows)
      leaf_size (some (List.range matrix.n_cols))).matrix.n_cols = matrix.n_cols := by
    show (split matrix ((TMetricTree.new.Init 0 matrix.n_cols).centerInit matrix.n_rows)
      leaf_size (some (List.range matrix.n_cols))).matrix.cols.length = matrix.cols.length
    rw [hcols, length_applySwaps]
  have hcol : ∀ i, i < matrix.n_cols →
      ∃ j, (applySwaps swaps (List.range matrix.n_cols))[i]? = some j ∧ j < matrix.n_cols ∧
        (split matrix ((TMetricTree.new.Init 0 matrix.n_cols).centerInit matrix.n_rows)
          leaf_size (some (List.range matrix.n_cols))).matrix.cols[i]? = matrix.cols[j]? := by
    intro i hi
    refine ⟨permOf swaps i, hget i hi, permOf_lt swaps hsw i hi, ?_⟩
    rw [hcols]
    exact getElem?_applySwaps swaps matrix.cols hsw i
  cases new_from_old with
  | false =>
    refine ⟨⟨(split matrix ((TMetricTree.new.Init 0 matrix.n_cols).centerInit matrix.n_rows)
        leaf_size (some (List.range matrix.n_cols))).node,
      (split matrix ((TMetricTree.new.Init 0 matrix.n_cols).centerInit matrix.n_rows)
        leaf_size (some (List.range matrix.n_cols))).matrix,
      some (applySwaps swaps (List.range matrix.n_cols)), none⟩,
      applySwaps swaps (List.range matrix.n_cols), ?_, rfl, hcol⟩
    simp [MakeGenMetricTree, fillIdentity_Init, hofn]
  | true =>
    obtain ⟨nfo, hnfo, -, -⟩ :=
      fillNewFromOld_spec (applySwaps swaps (List.range matrix.n_cols)) matrix.n_cols
        (permOf swaps) hget (permOf_lt swaps hsw)
        (fun i j _ _ e => by
          have := congrArg (invOf swaps) e
          simpa [invOf_permOf] using this)
    refine ⟨⟨(split matrix ((TMetricTree.new.Init 0 matrix.n_cols).centerInit matrix.n_rows)
        leaf_size (some (List.range matrix.n_cols))).node,
      (split matrix ((TMetricTree.new.Init 0 matrix.n_cols).centerInit matrix.n_rows)
        leaf_size (some (List.range matrix.n_cols))).matrix,
      some (applySwaps swaps (List.range matrix.n_cols)), some nfo⟩,
      applySwaps swaps (List.range matrix.n_cols), ?_, rfl, hcol⟩
    simp only [MakeGenMetricTree, if_true, fillIdentity_Init, hofn, hn, hnfo]

theorem swapsTogether_splitBySwaps {α : Type} (swaps : List (Nat × Nat)) (matrix : Matrix α)
    (leaf_size : Int) (h : ∀ p ∈ swaps, p.1 < matrix.n_cols ∧ p.2 < matrix.n_cols) :
    SwapsTogether (splitBySwaps swaps) matrix leaf_size :=
  ⟨swaps, h, rfl, rfl⟩

/-- Instance of C2: four points, the partitioning step exchanges columns 0, 3 and then
1, 3. -/
theorem MakeGenMetricTree_columns_follow_old_from_new_witness :
    SwapsTogether (splitBySwaps [(0, 3), (1, 3)])
        (⟨2, [[0, 0], [1, 0], [0, 1], [5, 5]]⟩ : Matrix Int) 1 ∧
    ((∀ i, i < (⟨2, [[0, 0], [1, 0], [0, 1], [5, 5]]⟩ : Matrix Int).n_cols →
      ∃ j, (fillIdentity (ArrayList.Init (⟨2, [[0, 0], [1, 0], [0, 1], [5, 5]]⟩ : Matrix Int).n_cols)
          (⟨2, [[0, 0], [1, 0], [0, 1], [5, 5]]⟩ : Matrix Int).n_cols)[i]? = some j ∧
        j < (⟨2, [[0, 0], [1, 0], [0, 1], [5, 5]]⟩ : Matrix Int).n_cols ∧
        (⟨2, [[0, 0], [1, 0], [0, 1], [5, 5]]⟩ : Matrix Int).cols[i]?
          = (⟨2, [[0, 0], [1, 0], [0, 1], [5, 5]]⟩ : Matrix Int).cols[j]?) ∧
    ∃ r ofn, MakeGenMetricTree (splitBySwaps [(0, 3), (1, 3)])
        (⟨2, [[0, 0], [1, 0], [0, 1], [5, 5]]⟩ : Matrix Int) 1 true true = Except.ok r ∧
      r.old_from_new = some ofn ∧
      ∀ i, i < (⟨2, [[0, 0], [1, 0], [0, 1], [5, 5]]⟩ : Matrix Int).n_cols →
        ∃ j, ofn[i]? = some j ∧ j < (⟨2, [[0, 0], [1, 0], [0, 1], [5, 5]]⟩ : Matrix Int).n_cols ∧
          r.matrix.cols[i]? = (⟨2, [[0, 0], [1, 0], [0, 1], [5, 5]]⟩ : Matrix Int).cols[j]?) :=
  have hw : SwapsTogether (splitBySwaps [(0, 3), (1, 3)])
      (⟨2, [[0, 0], [1, 0], [0, 1], [5, 5]]⟩ : Matrix Int) 1 :=
    swapsTogether_splitBySwaps _ _ _ (by decide)
  ⟨hw, MakeGenMetricTree_columns_follow_old_from_new _ _ _ true hw⟩

end proximity

namespace proximity

/-- **C3, counterexample.**  With an empty matrix (`N = 0`) and `leaf_size = 0`, and also
with two points and `leaf_size = -1`, `MakeGenMetricTree` returns a root node, not
`InvalidInput`. -/
theorem MakeGenMetricTree_accepts_degenerate_input :
    MakeGenMetricTree (splitBySwaps []) (⟨1, []⟩ : Matrix Int) 0 true true
      = Except.ok ⟨.leaf 0 0 1, ⟨1, []⟩, some [], some []⟩ ∧
    MakeGenMetricTree (splitBySwaps []) (⟨1, [[7], [8]]⟩ : Matrix Int) (-1) true true
      = Except.ok ⟨.leaf 0 2 1, ⟨1, [[7], [8]]⟩, some [0, 1], some [0, 1]⟩ := by
  constructor <;> rfl

/-- **C3, amended.**  `MakeGenMetricTree` validates neither `N` nor `leaf_size`: for every
matrix (`N = 0` included), every `leaf_size` (values below 1 included) and every choice of
supplied mappings it does not fail with `InvalidInput`; with `new_from_old` omitted it
returns the node that it initialised to the range `[0, N)` and handed to the partitioning
step; and with both mappings supplied and a partitioning step that only exchanges entries
it returns that node as well. -/
theorem MakeGenMetricTree_no_validation {α : Type} (split : SplitFn α) (matrix : Matrix α)
    (leaf_size : Int) (old_from_new new_from_old : Bool)
    (h : OnlySwapsMapping split matrix leaf_size) :
    MakeGenMetricTree split matrix leaf_size old_from_new new_from_old
      ≠ Except.error Fault.InvalidInput ∧
    (∃ r, MakeGenMetricTree split matrix leaf_size old_from_new false = Except.ok r ∧
      r.node = (split matrix ((TMetricTree.new.Init 0 matrix.n_cols).centerInit matrix.n_rows)
        leaf_size (if old_from_new then
          some (fillIdentity (ArrayList.Init matrix.n_cols) matrix.n_cols) else none)).node) ∧
    (∃ r, MakeGenMetricTree split matrix leaf_size true true = Except.ok r ∧
      r.node = (split matrix ((TMetricTree.new.Init 0 matrix.n_cols).centerInit matrix.n_rows)
        leaf_size (some (fillIdentity (ArrayList.Init matrix.n_cols) matrix.n_cols))).node) := by
  refine ⟨?_, ⟨_, rfl, rfl⟩, ?_⟩
  · unfold MakeGenMetricTree
    cases new_from_old with
    | false => simp
    | true =>
      simp only [if_true]
      generalize split matrix _ leaf_size _ = s
      unfold fillNewFromOld
      generalize ArrayList.Init s.matrix.n_cols = init
      have key : ∀ (l : List Nat) (acc : List Nat),
          List.foldlM (newFromOldStep s.old_from_new) acc l
            ≠ Except.error Fault.InvalidInput := by
        intro l
        induction l with
        | nil => intro acc; simp [List.foldlM, pure, Except.pure]
        | cons i l ih =>
          intro acc
          rw [List.foldlM_cons]
          cases hstep : newFromOldStep s.old_from_new acc i with
          | error e =>
            have : e ≠ Fault.InvalidInput := by
              unfold newFromOldStep at hstep
              split at hstep
              · cases hstep; decide
              · split at hstep
                · cases hstep; decide
                · split at hstep
                  · cases hstep
                  · cases hstep; decide
            intro hc
            apply this
            simpa [bind, Except.bind] using hc
          | ok acc2 => exact ih acc2
      have hk := key (List.range s.matrix.n_cols) init
      cases hres : List.foldlM (newFromOldStep s.old_from_new) init
          (List.range s.matrix.n_cols) with
      | error e =>
        intro hc
        apply hk
        rw [hres]
        simpa using hc
      | ok nfo => simp
  · obtain ⟨swaps, hsw, hofn, hcols⟩ := h
    have hget := getElem?_swapped_identity matrix.n_cols swaps hsw
    obtain ⟨nfo, hnfo, -, -⟩ :=
      fillNewFromOld_spec (applySwaps swaps (List.range matrix.n_cols)) matrix.n_cols
        (permOf swaps) hget (permOf_lt swaps hsw)
        (fun i j _ _ e => by
          have := congrArg (invOf swaps) e
          simpa [invOf_permOf] using this)
    rw [fillIdentity_Init] at hofn hcols ⊢
    refine ⟨⟨(split matrix ((TMetricTree.new.Init 0 matrix.n_cols).centerInit matrix.n_rows)
        leaf_size (some (List.range matrix.n_cols))).node,
      (split matrix ((TMetricTree.new.Init 0 matrix.n_cols).centerInit matrix.n_rows)
        leaf_size (some (List.range matrix.n_cols))).matrix,
      some (applySwaps swaps (List.range matrix.n_cols)), some nfo⟩, ?_, rfl⟩
    simp only [MakeGenMetricTree, if_true, fillIdentity_Init, hofn, hcols, hnfo]

/-- Instance of the amended C3 at an empty matrix and `leaf_size = 0`. -/
theorem MakeGenMetricTree_no_validation_witness :
    OnlySwapsMapping (splitBySwaps []) (⟨3, []⟩ : Matrix Int) 0 ∧
    (MakeGenMetricTree (splitBySwaps []) (⟨3, []⟩ : Matrix Int) 0 true true
      ≠ Except.error Fault.InvalidInput ∧
    (∃ r, MakeGenMetricTree (splitBySwaps []) (⟨3, []⟩ : Matrix Int) 0 true false
        = Except.ok r ∧
      r.node = ((splitBySwaps []) (⟨3, []⟩ : Matrix Int)
        ((TMetricTree.new.Init 0 (⟨3, []⟩ : Matrix Int).n_cols).centerInit
          (⟨3, []⟩ : Matrix Int).n_rows)
        0 (if true then
          some (fillIdentity (ArrayList.Init (⟨3, []⟩ : Matrix Int).n_cols)
            (⟨3, []⟩ : Matrix Int).n_cols) else none)).node) ∧
    (∃ r, MakeGenMetricTree (splitBySwaps []) (⟨3, []⟩ : Matrix Int) 0 true true
        = Except.ok r ∧
      r.node = ((splitBySwaps []) (⟨3, []⟩ : Matrix Int)
        ((TMetricTree.new.Init 0 (⟨3, []⟩ : Matrix Int).n_cols).centerInit
          (⟨3, []⟩ : Matrix Int).n_rows)
        0 (some (fillIdentity (ArrayList.Init (⟨3, []⟩ : Matrix Int).n_cols)
            (⟨3, []⟩ : Matrix Int).n_cols))).node)) :=
  have hw : OnlySwapsMapping (splitBySwaps []) (⟨3, []⟩ : Matrix Int) 0 :=
    onlySwapsMapping_splitBySwaps _ _ _ (by decide)
  ⟨hw, MakeGenMetricTree_no_validation _ _ _ true true hw⟩

end proximity

/-! ## max_ip_main.cpp : theorems -/

namespace maxip

theorem size_t_of_int_of_nonneg {k : Int} (h0 : 0 ≤ k) (h1 : k < 2 ^ 31) :
    size_t_of_int k = k.toNat := by
  unfold size_t_of_int
  rw [Int.emod_eq_of_lt h0 (by omega)]

theorem main_of_k_ok {R : Type} (inp : Input R)
    (hk : ¬ size_t_of_int inp.k > inp.referenceData.n_cols) :
    main inp = [Event.loadReference]
      ++ (match inp.query_file with
          | some _ => [Event.loadQuery]
          | none => [Event.infoUsingReference])
      ++ (if inp.naive && inp.single then [Event.warnSingleIgnored] else [])
      ++ (if (queryDataOf inp).n_elem = 0 then
            [Event.constructReferenceOnly inp.referenceData (inp.single && !inp.naive) inp.naive,
              Event.search (size_t_of_int inp.k)]
          else
            [Event.constructWithQuery inp.referenceData (queryDataOf inp)
              (inp.single && !inp.naive) inp.naive, Event.search (size_t_of_int inp.k)])
      ++ (if inp.products_file then [Event.saveProducts] else [])
      ++ (if inp.indices_file then [Event.saveIndices] else []) := by
  unfold main queryDataOf
  simp only [hk, if_false]

/-- **C4.**  For a reference set of `N` points and an `int` parameter `k > N`, the run
consists of loading the reference data followed by the fatal "Invalid k" report; no `MaxIP`
object is constructed and no search is performed. -/
theorem main_rejects_k_above_N {R : Type} (inp : Input R)
    (hk : (inp.referenceData.n_cols : Int) < inp.k) (hint : inp.k < 2 ^ 31) :
    main inp = [Event.loadReference,
      Event.fatalInvalidK inp.k.toNat inp.referenceData.n_cols] ∧
    (∀ e ∈ main inp, e.isConstruct = false ∧ e.isSearch = false) := by
  have h0 : 0 ≤ inp.k := by omega
  have hgt : size_t_of_int inp.k > inp.referenceData.n_cols := by
    rw [size_t_of_int_of_nonneg h0 hint]
    omega
  have hm : main inp = [Event.loadReference,
      Event.fatalInvalidK inp.k.toNat inp.referenceData.n_cols] := by
    rw [size_t_of_int_of_nonneg h0 hint] at hgt
    unfold main
    simp only [size_t_of_int_of_nonneg h0 hint, LogFatal]
    rw [if_pos hgt]
    rfl
  refine ⟨hm, ?_⟩
  rw [hm]
  intro e he
  simp only [List.mem_cons, List.mem_singleton, List.not_mem_nil, or_false] at he
  rcases he with rfl | rfl <;> exact ⟨rfl, rfl⟩

/-- Instance of C4: three reference points, `k = 4`. -/
theorem main_rejects_k_above_N_witness :
    (((⟨4, false, false, ⟨1, [[1], [2], [3]]⟩, none, false, false⟩ :
        Input Int).referenceData.n_cols : Int)
      < (⟨4, false, false, ⟨1, [[1], [2], [3]]⟩, none, false, false⟩ : Input Int).k) ∧
    (main (⟨4, false, false, ⟨1, [[1], [2], [3]]⟩, none, false, false⟩ : Input Int)
      = [Event.loadReference, Event.fatalInvalidK
          (⟨4, false, false, ⟨1, [[1], [2], [3]]⟩, none, false, false⟩ : Input Int).k.toNat
          (⟨4, false, false, ⟨1, [[1], [2], [3]]⟩, none, false, false⟩ :
            Input Int).referenceData.n_cols] ∧
    (∀ e ∈ main (⟨4, false, false, ⟨1, [[1], [2], [3]]⟩, none, false, false⟩ : Input Int),
      e.isConstruct = false ∧ e.isSearch = false)) :=
  ⟨by decide, main_rejects_k_above_N _ (by decide) (by decide)⟩

/-- **C5, the code at the failing input.**  With three reference points and `k = 0` the
sanity check `k > n_cols` does not fire: there is no "Invalid k" report, a `MaxIP` object
is constructed and `Search(0, ...)` is called. -/
theorem main_k_zero_not_rejected :
    main (⟨0, false, false, ⟨1, [[1], [2], [3]]⟩, none, false, false⟩ : Input Int)
      = [Event.loadReference, Event.infoUsingReference,
          Event.constructReferenceOnly ⟨1, [[1], [2], [3]]⟩ false false, Event.search 0] ∧
    main (⟨4, false, false, ⟨1, [[1], [2], [3]]⟩, none, false, false⟩ : Input Int)
      = [Event.loadReference, Event.fatalInvalidK 4 3] := by
  constructor <;> decide

/-- **C6, counterexample.**  A query file is given and loads zero points (a 1 x 0 matrix);
with two reference points and `k = 1` the program constructs `MaxIP` from the reference set
alone and searches it, exactly the steps of the run without a query file. -/
theorem main_empty_query_falls_back :
    main (⟨1, false, false, ⟨1, [[1], [2]]⟩, some ⟨1, []⟩, false, false⟩ : Input Int)
      = [Event.loadReference, Event.loadQuery,
          Event.constructReferenceOnly ⟨1, [[1], [2]]⟩ false false, Event.search 1] ∧
    main (⟨1, false, false, ⟨1, [[1], [2]]⟩, none, false, false⟩ : Input Int)
      = [Event.loadReference, Event.infoUsingReference,
          Event.constructReferenceOnly ⟨1, [[1], [2]]⟩ false false, Event.search 1] := by
  constructor <;> decide

/-- **C6, amended.**  When a query file is given and loads zero points, and `k` passes the
sanity check, the program falls back to the reference set: its only construction is
`MaxIP(referenceData, single && !naive, naive)`, followed by `Search(k)`, the same
construction and search as in the run without a query file. -/
theorem main_empty_query_uses_reference {R : Type} (inp : Input R) (q : Mat R)
    (hq : inp.query_file = some q) (hempty : q.n_cols = 0)
    (hk : ¬ size_t_of_int inp.k > inp.referenceData.n_cols) :
    (main inp).filter (fun e => e.isConstruct || e.isSearch)
      = [Event.constructReferenceOnly inp.referenceData (inp.single && !inp.naive) inp.naive,
          Event.search (size_t_of_int inp.k)] ∧
    (main inp).filter (fun e => e.isConstruct || e.isSearch)
      = (main { inp with query_file := none }).filter (fun e => e.isConstruct || e.isSearch) := by
  have h1 : (queryDataOf inp).n_elem = 0 := by
    simp [queryDataOf, hq, Mat.n_elem, hempty]
  have h2 : (queryDataOf { inp with query_file := none }).n_elem = 0 := by
    simp [queryDataOf, Mat.n_elem, Mat.n_cols, Mat.empty]
  rw [main_of_k_ok inp hk, main_of_k_ok { inp with query_file := none } hk]
  simp only [h1, h2, if_true, hq]
  cases inp.naive <;> cases inp.single <;> cases inp.products_file <;>
    cases inp.indices_file <;> simp [Event.isConstruct, Event.isSearch]

/-- Instance of the amended C6. -/
theorem main_empty_query_uses_reference_witness :
    (main (⟨1, true, true, ⟨1, [[1], [2]]⟩, some ⟨1, []⟩, true, false⟩ : Input Int)).filter
        (fun e => e.isConstruct || e.isSearch)
      = [Event.constructReferenceOnly
          (⟨1, true, true, ⟨1, [[1], [2]]⟩, some ⟨1, []⟩, true, false⟩ : Input Int).referenceData
          ((⟨1, true, true, ⟨1, [[1], [2]]⟩, some ⟨1, []⟩, true, false⟩ : Input Int).single
            && !(⟨1, true, true, ⟨1, [[1], [2]]⟩, some ⟨1, []⟩, true, false⟩ : Input Int).naive)
          (⟨1, true, true, ⟨1, [[1], [2]]⟩, some ⟨1, []⟩, true, false⟩ : Input Int).naive,
          Event.search (size_t_of_int
            (⟨1, true, true, ⟨1, [[1], [2]]⟩, some ⟨1, []⟩, true, false⟩ : Input Int).k)] ∧
    (main (⟨1, true, true, ⟨1, [[1], [2]]⟩, some ⟨1, []⟩, true, false⟩ : Input Int)).filter
        (fun e => e.isConstruct || e.isSearch)
      = (main { (⟨1, true, true, ⟨1, [[1], [2]]⟩, some ⟨1, []⟩, true, false⟩ : Input Int) with
          query_file := none }).filter (fun e => e.isConstruct || e.isSearch) :=
  main_empty_query_uses_reference _ ⟨1, []⟩ rfl rfl (by decide)

/-- **C8.**  Whenever `k` passes the sanity check, the run constructs exactly one `MaxIP`
object; in the reference-only branch and in the with-query branch alike its single-tree
argument is `single && !naive`, true exactly when `--single` is present and `--naive` is
absent, its naive argument is `naive`, and the two are never both true. -/
theorem main_naive_overrides_single {R : Type} (inp : Input R)
    (hk : ¬ size_t_of_int inp.k > inp.referenceData.n_cols) :
    (∃ e, (main inp).filter Event.isConstruct = [e] ∧
      e = (if (queryDataOf inp).n_elem = 0 then
            Event.constructReferenceOnly inp.referenceData (inp.single && !inp.naive) inp.naive
          else
            Event.constructWithQuery inp.referenceData (queryDataOf inp)
              (inp.single && !inp.naive) inp.naive)) ∧
    (∀ e ∈ main inp, ∀ s n, e.modeArgs = some (s, n) →
      (s = true ↔ (inp.single = true ∧ inp.naive = false)) ∧
      (n = true ↔ inp.naive = true) ∧ ¬ (s = true ∧ n = true)) := by
  rw [main_of_k_ok inp hk]
  constructor
  · refine ⟨_, ?_, rfl⟩
    cases inp.query_file <;> cases inp.naive <;> cases inp.single <;>
      cases inp.products_file <;> cases inp.indices_file <;>
      by_cases h : (queryDataOf inp).n_elem = 0 <;> simp [Event.isConstruct, h]
  · intro e he s n hargs
    have hsn : s = (inp.single && !inp.naive) ∧ n = inp.naive := by
      simp only [List.mem_append, List.mem_cons, List.mem_singleton, List.not_mem_nil,
        or_false] at he
      rcases he with ((((rfl | he) | he) | he) | he) | he
      · simp [Event.modeArgs] at hargs
      · split at he <;> simp at he <;> subst he <;> simp [Event.modeArgs] at hargs
      · split at he
        · simp at he; subst he; simp [Event.modeArgs] at hargs
        · simp at he
      · split at he
        · simp only [List.mem_cons, List.mem_singleton, List.not_mem_nil, or_false] at he
          rcases he with rfl | rfl
          · simp only [Event.modeArgs, Option.some.injEq, Prod.mk.injEq] at hargs
            exact ⟨hargs.1.symm, hargs.2.symm⟩
          · simp [Event.modeArgs] at hargs
        · simp only [List.mem_cons, List.mem_singleton, List.not_mem_nil, or_false] at he
          rcases he with rfl | rfl
          · simp only [Event.modeArgs, Option.some.injEq, Prod.mk.injEq] at hargs
            exact ⟨hargs.1.symm, hargs.2.symm⟩
          · simp [Event.modeArgs] at hargs
      · split at he
        · simp at he; subst he; simp [Event.modeArgs] at hargs
        · simp at he
      · split at he
        · simp at he; subst he; simp [Event.modeArgs] at hargs
        · simp at he
    obtain ⟨rfl, rfl⟩ := hsn
    cases inp.single <;> cases inp.naive <;> simp

/-- Instance of C8: both flags present, a query file with two points. -/
theorem main_naive_overrides_single_witness :
    (∃ e, (main (⟨1, true, true, ⟨1, [[1], [2]]⟩, some ⟨1, [[5], [6]]⟩, false, false⟩ :
        Input Int)).filter Event.isConstruct = [e] ∧
      e = (if (queryDataOf (⟨1, true, true, ⟨1, [[1], [2]]⟩, some ⟨1, [[5], [6]]⟩, false,
              false⟩ : Input Int)).n_elem = 0 then
            Event.constructReferenceOnly ⟨1, [[1], [2]]⟩ (true && !true) true
          else
            Event.constructWithQuery ⟨1, [[1], [2]]⟩
              (queryDataOf (⟨1, true, true, ⟨1, [[1], [2]]⟩, some ⟨1, [[5], [6]]⟩, false,
                false⟩ : Input Int))
              (true && !true) true)) ∧
    (∀ e ∈ main (⟨1, true, true, ⟨1, [[1], [2]]⟩, some ⟨1, [[5], [6]]⟩, false, false⟩ :
        Input Int), ∀ s n, e.modeArgs = some (s, n) →
      (s = true ↔ (true = true ∧ true = false)) ∧
      (n = true ↔ true = true) ∧ ¬ (s = true ∧ n = true)) :=
  main_naive_overrides_single
    (⟨1, true, true, ⟨1, [[1], [2]]⟩, some ⟨1, [[5], [6]]⟩, false, false⟩ : Input Int)
    (by decide)

end maxip

/-! ## MaxIP search : theorems -/

namespace maxip

instance {S : Type} [LinearOrder S] : IsTotal (S × Nat) better :=
  ⟨fun a b => by
    unfold better
    rcases lt_trichotomy a.1 b.1 with h | h | h
    · exact Or.inr (Or.inl h)
    · rcases Nat.le_total a.2 b.2 with h2 | h2
      · exact Or.inl (Or.inr ⟨h, h2⟩)
      · exact Or.inr (Or.inr ⟨h.symm, h2⟩)
    · exact Or.inl (Or.inl h)⟩

instance {S : Type} [LinearOrder S] : IsTrans (S × Nat) better :=
  ⟨fun a b c hab hbc => by
    unfold better at *
    rcases hab with h | ⟨h, h2⟩ <;> rcases hbc with h' | ⟨h', h2'⟩
    · exact Or.inl (lt_trans h' h)
    · exact Or.inl (h' ▸ h)
    · exact Or.inl (h ▸ h')
    · exact Or.inr ⟨h.trans h', h2.trans h2'⟩⟩

instance {S : Type} [LinearOrder S] : IsAntisymm (S × Nat) better :=
  ⟨fun a b hab hba => by
    unfold better at *
    rcases hab with h | ⟨h, h2⟩ <;> rcases hba with h' | ⟨h', h2'⟩
    · exact absurd h (lt_asymm h')
    · exact absurd h (h' ▸ lt_irrefl _)
    · exact absurd h' (h ▸ lt_irrefl _)
    · exact Prod.ext h (Nat.le_antisymm h2 h2')⟩

theorem take_orderedInsert_take {S : Type} [LinearOrder S] (x : S × Nat) :
    ∀ (k : Nat) (s : List (S × Nat)),
      (List.orderedInsert better x (s.take k)).take k = (List.orderedInsert better x s).take k
  | 0, _ => by simp
  | k + 1, [] => by simp
  | k + 1, a :: s => by
    simp only [List.take_succ_cons, List.orderedInsert]
    by_cases h : better x a
    · simp only [h, if_true, List.take_succ_cons]
      congr 1
      cases k with
      | zero => simp
      | succ k => simp only [List.take_succ_cons, List.take_take, Nat.min_self]
                  congr 1
                  simp
    · simp only [h, if_false, List.take_succ_cons]
      congr 1
      exact take_orderedInsert_take x k s

theorem insertCandidate_topK {S : Type} [LinearOrder S] (k : Nat) (x : S × Nat)
    (l : List (S × Nat)) : insertCandidate k x (topK k l) = topK k (x :: l) := by
  unfold insertCandidate topK
  rw [take_orderedInsert_take]
  rfl

theorem topK_perm {S : Type} [LinearOrder S] (k : Nat) {l₁ l₂ : List (S × Nat)}
    (h : l₁.Perm l₂) : topK k l₁ = topK k l₂ := by
  unfold topK
  congr 1
  exact List.eq_of_perm_of_sorted
    (((List.perm_insertionSort better l₁).trans h).trans (List.perm_insertionSort better l₂).symm)
    (List.sorted_insertionSort better l₁) (List.sorted_insertionSort better l₂)

theorem sorted_topK {S : Type} [LinearOrder S] (k : Nat) (l : List (S × Nat)) :
    (topK k l).Sorted better :=
  (List.sorted_insertionSort better l).sublist (List.take_sublist k _)

theorem length_topK_le {S : Type} [LinearOrder S] (k : Nat) (l : List (S × Nat)) :
    (topK k l).length ≤ k := by
  unfold topK
  simp [List.length_take]

theorem better_getLast {S : Type} [LinearOrder S] :
    ∀ (c : List (S × Nat)), c.Sorted better → ∀ w, c.getLast? = some w → ∀ y ∈ c, w.1 ≤ y.1
  | [], _, w, hw, _, _ => by simp at hw
  | [a], _, w, hw, y, hy => by
    simp only [List.getLast?_singleton, Option.some.injEq] at hw
    simp only [List.mem_singleton] at hy
    subst hw; subst hy; exact le_refl _
  | a :: b :: c, hs, w, hw, y, hy => by
    have hs' : (b :: c).Sorted better := List.Sorted.of_cons hs
    have hw' : (b :: c).getLast? = some w := by
      rw [List.getLast?_cons_cons] at hw; exact hw
    rcases List.mem_cons.1 hy with rfl | hy'
    · have hwmem : w ∈ b :: c := List.mem_of_getLast?_eq_some hw'
      have := List.rel_of_sorted_cons hs w hwmem
      unfold better at this
      rcases this with h | ⟨h, _⟩
      · exact le_of_lt h
      · exact le_of_eq h.symm
    · exact better_getLast (b :: c) hs' w hw' y hy'

theorem orderedInsert_of_all_better {S : Type} [LinearOrder S] (x : S × Nat) :
    ∀ (c : List (S × Nat)), (∀ y ∈ c, x.1 < y.1) → List.orderedInsert better x c = c ++ [x]
  | [], _ => rfl
  | a :: c, h => by
    have ha : ¬ better x a := by
      unfold better
      have := h a (List.mem_cons_self _ _)
      rintro (h1 | ⟨h1, _⟩)
      · exact absurd h1 (lt_asymm this)
      · exact absurd this (h1 ▸ lt_irrefl _)
    simp only [List.orderedInsert, ha, if_false, List.cons_append]
    congr 1
    exact orderedInsert_of_all_better x c (fun y hy => h y (List.mem_cons_of_mem _ hy))

/-- An entry whose score is below the threshold leaves the candidate list as it is. -/
theorem insertCandidate_below_threshold {S : Type} [LinearOrder S] (k : Nat) (x : S × Nat)
    (c : List (S × Nat)) (hs : c.Sorted better) (hlen : c.length ≤ k) (w : S)
    (hw : threshold k c = some w) (hx : x.1 < w) : insertCandidate k x c = c := by
  unfold threshold at hw
  split at hw
  · cases hw
  · rename_i hfull
    have hck : c.length = k := by omega
    obtain ⟨e, he, rfl⟩ := Option.map_eq_some'.1 hw
    have hall : ∀ y ∈ c, x.1 < y.1 := fun y hy =>
      lt_of_lt_of_le hx (better_getLast c hs e he y hy)
    unfold insertCandidate
    rw [orderedInsert_of_all_better x c hall, List.take_append_of_le_length (by omega),
      ← hck, List.take_length]

/-- Entries that are all below the threshold of a top-k list do not change it. -/
theorem topK_append_below {S : Type} [LinearOrder S] (k : Nat) (l : List (S × Nat)) (w : S)
    (hw : threshold k (topK k l) = some w) :
    ∀ (xs : List (S × Nat)), (∀ x ∈ xs, x.1 < w) → topK k (xs ++ l) = topK k l
  | [], _ => rfl
  | x :: xs, h => by
    have ih := topK_append_below k l w hw xs (fun y hy => h y (List.mem_cons_of_mem _ hy))
    rw [List.cons_append, ← insertCandidate_topK, ih]
    exact insertCandidate_below_threshold k x _ (sorted_topK k l) (length_topK_le k l) w hw
      (h x (List.mem_cons_self _ _))

theorem cannotImprove_iff {S : Type} [LinearOrder S] (k : Nat) (b : S) (c : List (S × Nat)) :
    cannotImprove k b c = true ↔ ∃ w, threshold k c = some w ∧ b < w := by
  unfold cannotImprove
  cases threshold k c with
  | none => simp
  | some w => simp

/-- Leaf processing from a top-k list yields the top-k list of the enlarged set. -/
theorem processLeaf_topK {P S : Type} [LinearOrder S] (st : Strategy P S) (q : P) :
    ∀ (ps : List (Nat × P)) (l : List (S × Nat)),
      processLeaf st q ps (topK st.k l) = topK st.k (scored st q ps ++ l)
  | [], _ => rfl
  | x :: ps, l => by
    have h1 : processLeaf st q (x :: ps) (topK st.k l)
        = processLeaf st q ps (insertCandidate st.k (st.Score q x.2, x.1) (topK st.k l)) := rfl
    rw [h1, insertCandidate_topK, processLeaf_topK st q ps]
    apply topK_perm
    simp only [scored, List.map_cons, List.cons_append]
    exact List.perm_middle

/-- Single-tree traversal of a node from a top-k list yields the top-k list of the set
enlarged by the points of the node. -/
theorem singleTraverse_topK {P S : Type} [LinearOrder S] (st : Strategy P S)
    (hb : BoundSound st) (q : P) :
    ∀ (t : Tree P) (l : List (S × Nat)),
      singleTraverse st q t (topK st.k l) = topK st.k (scored st q t.points ++ l) := by
  have hprune : ∀ (t : Tree P) (l : List (S × Nat)),
      cannotImprove st.k (st.Bound q t) (topK st.k l) = true →
      topK st.k l = topK st.k (scored st q t.points ++ l) := by
    intro t l hp
    obtain ⟨w, hw, hlt⟩ := (cannotImprove_iff _ _ _).1 hp
    refine (topK_append_below st.k l w hw _ ?_).symm
    intro x hx
    obtain ⟨p, hp, rfl⟩ := List.mem_map.1 hx
    exact lt_of_le_of_lt (hb q t p hp) hlt
  intro t
  induction t with
  | leaf ps =>
    intro l
    unfold singleTraverse
    split
    · rename_i hp; exact hprune _ l hp
    · exact processLeaf_topK st q ps l
  | node lt rt ihl ihr =>
    intro l
    unfold singleTraverse
    split
    · rename_i hp; exact hprune _ l hp
    · split
      · rw [ihl, ihr]
        apply topK_perm
        simp only [scored, Tree.points, List.map_append]
        rw [← List.append_assoc]
        exact List.Perm.append_right _ List.perm_append_comm
      · rw [ihr, ihl]
        apply topK_perm
        simp only [scored, Tree.points, List.map_append, List.append_assoc]
        exact List.Perm.refl _

theorem Tracks.perm {P S : Type} [LinearOrder S] {st : Strategy P S}
    {σ : Nat → List (S × Nat)} {seen seen2 : Nat → List (Nat × P)} {Q : List (Nat × P)}
    (h : Tracks st σ seen Q) (hp : ∀ i, (seen i).Perm (seen2 i)) : Tracks st σ seen2 Q :=
  fun x hx => (h x hx).trans (topK_perm st.k ((hp x.1).map _))

theorem eq_of_fst_eq {P : Type} {Q : List (Nat × P)} (hQ : (Q.map Prod.fst).Nodup)
    {a b : Nat × P} (ha : a ∈ Q) (hb : b ∈ Q) (h : a.1 = b.1) : a = b :=
  List.inj_on_of_nodup_map hQ ha hb h

theorem tracks_of_pruned {P S : Type} [LinearOrder S] (st : Strategy P S)
    (hnb : NodeBoundSound st) (Q : List (Nat × P)) (hQ : (Q.map Prod.fst).Nodup)
    (qn rn : Tree P) (hsub : ∀ x ∈ qn.points, x ∈ Q) (σ : Nat → List (S × Nat))
    (seen : Nat → List (Nat × P)) (ht : Tracks st σ seen Q)
    (hp : cannotImprovePair st qn rn σ = true) :
    Tracks st σ (bump (qn.points.map Prod.fst) rn.points seen) Q := by
  intro x hx
  unfold bump
  by_cases hi : x.1 ∈ qn.points.map Prod.fst
  · rw [if_pos hi]
    obtain ⟨y, hy, hyx⟩ := List.mem_map.1 hi
    have hxy : y = x := eq_of_fst_eq hQ (hsub y hy) hx hyx
    subst hxy
    unfold cannotImprovePair at hp
    have hc := List.all_eq_true.1 hp y hy
    obtain ⟨w, hw, hlt⟩ := (cannotImprove_iff _ _ _).1 hc
    rw [ht y hx] at hw ⊢
    unfold scored
    rw [List.map_append]
    refine (topK_append_below st.k _ w hw _ ?_).symm
    intro e he
    obtain ⟨p, hp, rfl⟩ := List.mem_map.1 he
    exact lt_of_le_of_lt (hnb qn rn y p hy hp) hlt
  · rw [if_neg hi]
    exact ht x hx

theorem baseCase_tracks {P S : Type} [LinearOrder S] (st : Strategy P S)
    (Q : List (Nat × P)) (hQ : (Q.map Prod.fst).Nodup) (ps : List (Nat × P)) :
    ∀ (qs : List (Nat × P)), (qs.map Prod.fst).Nodup → (∀ x ∈ qs, x ∈ Q) →
      ∀ (σ : Nat → List (S × Nat)) (seen : Nat → List (Nat × P)), Tracks st σ seen Q →
        Tracks st (baseCase st qs ps σ) (bump (qs.map Prod.fst) ps seen) Q
  | [], _, _, σ, seen, ht => by
    intro x hx
    simpa [baseCase, bump] using ht x hx
  | q :: qs, hnd, hsub, σ, seen, ht => by
    have hq : q ∈ Q := hsub q (List.mem_cons_self _ _)
    have hnd' : (qs.map Prod.fst).Nodup := (List.nodup_cons.1 (by simpa using hnd)).2
    have hqn : q.1 ∉ qs.map Prod.fst := (List.nodup_cons.1 (by simpa using hnd)).1
    have h1 : Tracks st (Function.update σ q.1 (processLeaf st q.2 ps (σ q.1)))
        (bump [q.1] ps seen) Q := by
      intro x hx
      unfold bump
      by_cases hxq : x.1 = q.1
      · have : x = q := eq_of_fst_eq hQ hx hq hxq
        subst this
        simp only [Function.update_same, List.mem_singleton, if_true]
        rw [ht x hx, processLeaf_topK]
        unfold scored
        rw [List.map_append]
      · simp only [Function.update_noteq hxq, List.mem_singleton, hxq, if_false]
        exact ht x hx
    have h2 := baseCase_tracks st Q hQ ps qs hnd'
      (fun x hx => hsub x (List.mem_cons_of_mem _ hx)) _ _ h1
    have h3 : baseCase st (q :: qs) ps σ
        = baseCase st qs ps (Function.update σ q.1 (processLeaf st q.2 ps (σ q.1))) := rfl
    rw [h3]
    refine h2.perm ?_
    intro i
    unfold bump
    simp only [List.map_cons, List.mem_cons, List.mem_singleton]
    by_cases hi : i = q.1
    · subst hi
      simp [hqn]
    · by_cases hi2 : i ∈ qs.map Prod.fst
      · simp [hi, hi2]
      · simp [hi, hi2]

/-- Accounting of a sequence of node pairs, processed one after the other. -/
theorem foldl_bump_perm {P C : Type} (I : C → List Nat) (R : C → List (Nat × P)) (i : Nat) :
    ∀ (cs : List C) (seen : Nat → List (Nat × P)),
      ((cs.foldl (fun s c => bump (I c) (R c) s) seen) i).Perm
        (((cs.filter (fun c => decide (i ∈ I c))).flatMap R) ++ seen i)
  | [], _ => List.Perm.refl _
  | c :: cs, seen => by
    have ih := foldl_bump_perm I R i cs (bump (I c) (R c) seen)
    rw [List.foldl_cons]
    refine ih.trans ?_
    unfold bump
    by_cases hi : i ∈ I c
    · simp only [hi, if_true, List.filter_cons, decide_True, List.flatMap_cons,
        List.append_assoc]
      exact List.perm_append_comm_assoc _ _ _
    · simp only [hi, if_false, List.filter_cons, decide_False]
      exact List.Perm.refl _

theorem size_pos {P : Type} (t : Tree P) : 0 < t.size := by
  cases t <;> simp [Tree.size]

theorem pick_size_lt {P : Type} (b : Bool) (l r : Tree P) :
    (pick b l r).size < (Tree.node l r).size := by
  cases b <;> simp [pick, Tree.size] <;> omega

theorem pick_points_mem {P : Type} (b : Bool) (l r : Tree P) (x : Nat × P)
    (h : x ∈ (pick b l r).points) : x ∈ (Tree.node l r).points := by
  cases b
  · exact List.mem_append_left _ h
  · exact List.mem_append_right _ h

theorem pick_points_nodup {P : Type} (b : Bool) (l r : Tree P)
    (h : ((Tree.node l r).points.map Prod.fst).Nodup) :
    ((pick b l r).points.map Prod.fst).Nodup := by
  simp only [Tree.points, List.map_append] at h
  cases b
  · exact h.of_append_left
  · exact h.of_append_right

/-- Dual-tree traversal of a pair of nodes accounts, for every query of the query node, for
all points of the reference node, and leaves the other queries alone. -/
theorem dualTraverse_tracks {P S : Type} [LinearOrder S] (st : Strategy P S)
    (hnb : NodeBoundSound st) (Q : List (Nat × P)) (hQ : (Q.map Prod.fst).Nodup) :
    ∀ (n : Nat) (qn rn : Tree P), qn.size + rn.size ≤ n →
      (qn.points.map Prod.fst).Nodup → (∀ x ∈ qn.points, x ∈ Q) →
      ∀ (σ : Nat → List (S × Nat)) (seen : Nat → List (Nat × P)), Tracks st σ seen Q →
        Tracks st (dualTraverse st qn rn σ) (bump (qn.points.map Prod.fst) rn.points seen) Q
  | 0, qn, rn, hn, _, _, _, _, _ => by
    have := size_pos qn
    omega
  | n + 1, .leaf qs, .leaf ps, _, hnd, hsub, σ, seen, ht => by
    rw [dualTraverse]
    split
    · rename_i hp
      exact tracks_of_pruned st hnb Q hQ _ _ hsub σ seen ht hp
    · exact baseCase_tracks st Q hQ ps qs hnd hsub σ seen ht
  | n + 1, .leaf qs, .node rl rr, hn, hnd, hsub, σ, seen, ht => by
    have ihl := dualTraverse_tracks st hnb Q hQ n (.leaf qs) rl
      (by simp only [Tree.size] at hn ⊢; omega) hnd hsub
    have ihr := dualTraverse_tracks st hnb Q hQ n (.leaf qs) rr
      (by simp only [Tree.size] at hn ⊢; omega) hnd hsub
    rw [dualTraverse]
    split
    · rename_i hp
      exact tracks_of_pruned st hnb Q hQ _ _ hsub σ seen ht hp
    · split
      · refine (ihr _ _ (ihl σ seen ht)).perm ?_
        intro i
        unfold bump
        by_cases hi : i ∈ qs.map Prod.fst
        · simp only [Tree.points, hi, if_true]
          rw [← List.append_assoc]
          exact List.Perm.append_right _ List.perm_append_comm
        · simp only [Tree.points, hi, if_false]
          exact List.Perm.refl _
      · refine (ihl _ _ (ihr σ seen ht)).perm ?_
        intro i
        unfold bump
        by_cases hi : i ∈ qs.map Prod.fst
        · simp only [Tree.points, hi, if_true, List.append_assoc]
          exact List.Perm.refl _
        · simp only [Tree.points, hi, if_false]
          exact List.Perm.refl _
  | n + 1, .node ql qr, .leaf ps, hn, hnd, hsub, σ, seen, ht => by
    have ihl := dualTraverse_tracks st hnb Q hQ n ql (.leaf ps)
      (by simp only [Tree.size] at hn ⊢; omega) (pick_points_nodup false ql qr hnd)
      (fun x hx => hsub x (pick_points_mem false ql qr x hx))
    have ihr := dualTraverse_tracks st hnb Q hQ n qr (.leaf ps)
      (by simp only [Tree.size] at hn ⊢; omega) (pick_points_nodup true ql qr hnd)
      (fun x hx => hsub x (pick_points_mem true ql qr x hx))
    have hdis : ∀ i, i ∈ ql.points.map Prod.fst → i ∉ qr.points.map Prod.fst := by
      simp only [Tree.points, List.map_append] at hnd
      exact fun i h1 h2 => (List.nodup_append.1 hnd).2.2 h1 h2
    have hperm : ∀ (s1 s2 : Nat → List (Nat × P)),
        (∀ i, s1 i = if i ∈ ql.points.map Prod.fst ∨ i ∈ qr.points.map Prod.fst
          then (Tree.leaf ps).points ++ seen i else seen i) →
        ∀ i, (s1 i).Perm
          (bump ((Tree.node ql qr).points.map Prod.fst) (Tree.leaf ps).points seen i) := by
      intro s1 _ h i
      rw [h i]
      unfold bump
      simp only [Tree.points, List.map_append, List.mem_append]
      exact List.Perm.refl _
    rw [dualTraverse]
    split
    · rename_i hp
      exact tracks_of_pruned st hnb Q hQ _ _ hsub σ seen ht hp
    · split
      · refine (ihr _ _ (ihl σ seen ht)).perm (hperm _ seen ?_)
        intro i
        unfold bump
        by_cases h1 : i ∈ ql.points.map Prod.fst
        · simp [h1, hdis i h1]
        · by_cases h2 : i ∈ qr.points.map Prod.fst <;> simp [h1, h2]
      · refine (ihl _ _ (ihr σ seen ht)).perm (hperm _ seen ?_)
        intro i
        unfold bump
        by_cases h1 : i ∈ ql.points.map Prod.fst
        · simp [h1, hdis i h1]
        · by_cases h2 : i ∈ qr.points.map Prod.fst <;> simp [h1, h2]
  | n + 1, .node ql qr, .node rl rr, hn, hnd, hsub, σ, seen, ht => by
    have ih : ∀ (c : Bool × Bool) (σ : Nat → List (S × Nat)) (seen : Nat → List (Nat × P)),
        Tracks st σ seen Q →
        Tracks st (dualTraverse st (pick c.1 ql qr) (pick c.2 rl rr) σ)
          (bump ((pick c.1 ql qr).points.map Prod.fst) (pick c.2 rl rr).points seen) Q :=
      fun c => dualTraverse_tracks st hnb Q hQ n (pick c.1 ql qr) (pick c.2 rl rr)
        (by
          have h1 := pick_size_lt c.1 ql qr
          have h2 := pick_size_lt c.2 rl rr
          omega)
        (pick_points_nodup c.1 ql qr hnd)
        (fun x hx => hsub x (pick_points_mem c.1 ql qr x hx))
    have hfold : ∀ (cs : List (Bool × Bool)) (σ : Nat → List (S × Nat))
        (seen : Nat → List (Nat × P)), Tracks st σ seen Q →
        Tracks st (cs.foldl (fun σ c => dualTraverse st (pick c.1 ql qr) (pick c.2 rl rr) σ) σ)
          (cs.foldl (fun s c =>
            bump ((pick c.1 ql qr).points.map Prod.fst) (pick c.2 rl rr).points s) seen) Q := by
      intro cs
      induction cs with
      | nil => intro σ seen h; exact h
      | cons c cs ihcs =>
        intro σ seen h
        rw [List.foldl_cons, List.foldl_cons]
        exact ihcs _ _ (ih c σ seen h)
    have hdis : ∀ i, i ∈ ql.points.map Prod.fst → i ∉ qr.points.map Prod.fst := by
      simp only [Tree.points, List.map_append] at hnd
      exact fun i h1 h2 => (List.nodup_append.1 hnd).2.2 h1 h2
    rw [dualTraverse]
    split
    · rename_i hp
      exact tracks_of_pruned st hnb Q hQ _ _ hsub σ seen ht hp
    · refine (hfold _ σ seen ht).perm ?_
      intro i
      refine (foldl_bump_perm (fun c : Bool × Bool => (pick c.1 ql qr).points.map Prod.fst)
        (fun c : Bool × Bool => (pick c.2 rl rr).points) i _ seen).trans ?_
      refine (List.Perm.append_right _ (List.Perm.flatMap_right _
        (List.Perm.filter _ (List.perm_insertionSort _ _)))).trans ?_
      unfold bump
      by_cases h1 : i ∈ ql.points.map Prod.fst
      · have h2 := hdis i h1
        simp [pick, Tree.points, h1, h2, List.filter_cons]
      · by_cases h2 : i ∈ qr.points.map Prod.fst
        · simp [pick, Tree.points, h1, h2, List.filter_cons]
        · simp [pick, Tree.points, h1, h2, List.filter_cons]

theorem bruteForceSearch_eq_topK {P S : Type} [LinearOrder S] (st : Strategy P S)
    (reference : List (Nat × P)) (q : P) :
    bruteForceSearch st reference q = topK st.k (scored st q reference) := by
  have := processLeaf_topK st q reference []
  simpa [bruteForceSearch, topK] using this

theorem singleTreeSearch_eq_topK {P S : Type} [LinearOrder S] (st : Strategy P S)
    (hb : BoundSound st) (reference : Tree P) (q : P) :
    singleTreeSearch st reference q = topK st.k (scored st q reference.points) := by
  have := singleTraverse_topK st hb q reference []
  simpa [singleTreeSearch, topK] using this

theorem dualTreeSearch_eq_topK {P S : Type} [LinearOrder S] (st : Strategy P S)
    (hnb : NodeBoundSound st) (reference query : Tree P)
    (hq : (query.points.map Prod.fst).Nodup) (q : Nat × P) (hmem : q ∈ query.points) :
    dualTreeSearch st query reference q.1 = topK st.k (scored st q.2 reference.points) := by
  have h0 : Tracks st (fun _ => ([] : List (S × Nat))) (fun _ => []) query.points := by
    intro x _
    simp [topK, scored]
  have := dualTraverse_tracks st hnb query.points hq _ query reference (Nat.le_refl _) hq
    (fun x hx => hx) _ _ h0 q hmem
  unfold dualTreeSearch
  rw [this]
  unfold bump
  rw [if_pos (List.mem_map_of_mem _ hmem), List.append_nil]

/-- **C7.**  For a strategy with sound bounds, a reference tree holding exactly the points
of the reference set, a query tree whose points carry distinct indices, and any `k`: in
each of the three modes (naive, single-tree, dual-tree) `Search` returns, for every query,
the candidate list of the exhaustive brute-force search over the reference set, which is
the list of the `k` best entries, ties broken by smaller original index.  Duplicate or
collinear points and `N = 1` are not excluded. -/
theorem search_modes_agree {P S : Type} [LinearOrder S] (st : Strategy P S)
    (hb : BoundSound st) (hnb : NodeBoundSound st) (referenceSet : List (Nat × P))
    (reference query : Tree P) (href : reference.points.Perm referenceSet)
    (hq : (query.points.map Prod.fst).Nodup) (singleMode naive : Bool) :
    Search st singleMode naive reference query
      = query.points.map (fun q => (q.1, bruteForceSearch st referenceSet q.2)) ∧
    ∀ q ∈ query.points,
      bruteForceSearch st referenceSet q.2 = topK st.k (scored st q.2 referenceSet) ∧
      singleTreeSearch st reference q.2 = bruteForceSearch st referenceSet q.2 ∧
      dualTreeSearch st query reference q.1 = bruteForceSearch st referenceSet q.2 := by
  have hbf : ∀ q : P, bruteForceSearch st reference.points q
      = bruteForceSearch st referenceSet q := by
    intro q
    rw [bruteForceSearch_eq_topK, bruteForceSearch_eq_topK]
    exact topK_perm _ (href.map _)
  have hs : ∀ q : P, singleTreeSearch st reference q = bruteForceSearch st referenceSet q := by
    intro q
    rw [singleTreeSearch_eq_topK st hb, ← bruteForceSearch_eq_topK, hbf]
  have hd : ∀ q ∈ query.points,
      dualTreeSearch st query reference q.1 = bruteForceSearch st referenceSet q.2 := by
    intro q hmem
    rw [dualTreeSearch_eq_topK st hnb reference query hq q hmem, ← bruteForceSearch_eq_topK,
      hbf]
  refine ⟨?_, fun q hmem => ⟨bruteForceSearch_eq_topK st referenceSet q.2, hs q.2, hd q hmem⟩⟩
  unfold Search
  cases naive with
  | true => simp [hbf]
  | false =>
    cases singleMode with
    | true => simp [hs]
    | false =>
      simp only [Bool.false_eq_true, if_false]
      exact List.map_congr_left (fun q hmem => by rw [hd q hmem])

theorem le_maxOf : ∀ (l : List Int) (a : Int), a ∈ l → a ≤ maxOf l
  | [], _, h => by simp at h
  | b :: l, a, h => by
    unfold maxOf
    rw [List.foldr_cons]
    rcases List.mem_cons.1 h with rfl | h'
    · exact le_max_left _ _
    · exact le_trans (le_maxOf l a h') (le_max_right _ _)

theorem linearStrategy_boundSound (k : Nat) : BoundSound (linearStrategy k) := by
  intro q t x hx
  exact le_maxOf _ _ (List.mem_map_of_mem (fun x => LinearKernel.Evaluate q x.2) hx)

theorem linearStrategy_nodeBoundSound (k : Nat) : NodeBoundSound (linearStrategy k) := by
  intro qn rn q x hq hx
  apply le_maxOf
  rw [List.mem_flatMap]
  exact ⟨q, hq, List.mem_map_of_mem (fun x => LinearKernel.Evaluate q.2 x.2) hx⟩

/-- Instance of C7: four reference points, two of them equal, and two query points, `k = 2`,
dual-tree mode. -/
theorem search_modes_agree_witness :
    Search (linearStrategy 2) false false
        (.node (.leaf [(2, [0, 1]), (0, [1, 0])]) (.leaf [(1, [1, 0]), (3, [5, 5])]))
        (.node (.leaf [(0, [1, 1])]) (.leaf [(1, [-1, 2])]))
      = (Tree.node (.leaf [(0, [1, 1])]) (.leaf [(1, [-1, 2])])).points.map
          (fun q => (q.1, bruteForceSearch (linearStrategy 2)
            [(0, [1, 0]), (1, [1, 0]), (2, [0, 1]), (3, [5, 5])] q.2)) ∧
    ∀ q ∈ (Tree.node (.leaf [(0, [1, 1])]) (.leaf [(1, [-1, 2])])).points,
      bruteForceSearch (linearStrategy 2) [(0, [1, 0]), (1, [1, 0]), (2, [0, 1]), (3, [5, 5])] q.2
        = topK (linearStrategy 2).k (scored (linearStrategy 2) q.2
            [(0, [1, 0]), (1, [1, 0]), (2, [0, 1]), (3, [5, 5])]) ∧
      singleTreeSearch (linearStrategy 2)
          (.node (.leaf [(2, [0, 1]), (0, [1, 0])]) (.leaf [(1, [1, 0]), (3, [5, 5])])) q.2
        = bruteForceSearch (linearStrategy 2)
            [(0, [1, 0]), (1, [1, 0]), (2, [0, 1]), (3, [5, 5])] q.2 ∧
      dualTreeSearch (linearStrategy 2)
          (.node (.leaf [(0, [1, 1])]) (.leaf [(1, [-1, 2])]))
          (.node (.leaf [(2, [0, 1]), (0, [1, 0])]) (.leaf [(1, [1, 0]), (3, [5, 5])])) q.1
        = bruteForceSearch (linearStrategy 2)
            [(0, [1, 0]), (1, [1, 0]), (2, [0, 1]), (3, [5, 5])] q.2 :=
  search_modes_agree (linearStrategy 2) (linearStrategy_boundSound 2)
    (linearStrategy_nodeBoundSound 2) [(0, [1, 0]), (1, [1, 0]), (2, [0, 1]), (3, [5, 5])]
    (.node (.leaf [(2, [0, 1]), (0, [1, 0])]) (.leaf [(1, [1, 0]), (3, [5, 5])]))
    (.node (.leaf [(0, [1, 1])]) (.leaf [(1, [-1, 2])]))
    (by decide) (by decide) false false

end maxip

/-! ## dense_point.h : theorems -/

namespace core.table

theorem Op.apply_keeps_alias {α : Type} [Zero α] [HAdd α α α] [HMul α α α] [HDiv α α α]
    (m : Memory α) (p : DensePoint) (op : Op α) (h : op.isCopyValues = false) :
    (op.apply m p).2 = p ∧ (op.apply m p).1.freed = m.freed := by
  have hf : ∀ (n ptr : Nat) (f : Memory α → Nat → α → α) (m : Memory α),
      (forCells m ptr n f).freed = m.freed := by
    intro n ptr f m
    unfold forCells
    generalize List.range n = l
    induction l generalizing m with
    | nil => rfl
    | cons i l ih => rw [List.foldl_cons, ih]; rfl
  cases op with
  | CopyValues q => simp [Op.isCopyValues] at h
  | SetZero => exact ⟨rfl, hf _ _ _ _⟩
  | Add s q => exact ⟨rfl, hf _ _ _ _⟩
  | addAssign q => exact ⟨rfl, hf _ _ _ _⟩
  | divAssign s => exact ⟨rfl, hf _ _ _ _⟩
  | mulAssign s => exact ⟨rfl, hf _ _ _ _⟩

/-- The five operations `SetZero`, `Add`, `+=`, `/=`, `*=` leave an aliased point aliased,
so that its destructor deallocates nothing. -/
theorem runOps_without_CopyValues_keeps_alias {α : Type} [Zero α] [HAdd α α α] [HMul α α α]
    [HDiv α α α] (m : Memory α) (p : DensePoint) (ptr_in length_in : Nat) (ops : List (Op α))
    (h : ∀ op ∈ ops, op.isCopyValues = false) :
    (runOps m (p.Alias ptr_in length_in) ops).2.is_alias_ = true ∧
    ((runOps m (p.Alias ptr_in length_in) ops).2.destroy
      (runOps m (p.Alias ptr_in length_in) ops).1).1.freed = m.freed := by
  have key : ∀ (ops : List (Op α)) (m : Memory α) (q : DensePoint),
      (∀ op ∈ ops, op.isCopyValues = false) →
      (runOps m q ops).2 = q ∧ (runOps m q ops).1.freed = m.freed := by
    intro ops
    induction ops with
    | nil => intro m q _; exact ⟨rfl, rfl⟩
    | cons op ops ih =>
      intro m q hops
      have h1 := Op.apply_keeps_alias m q op (hops op (List.mem_cons_self _ _))
      have h2 := ih (op.apply m q).1 (op.apply m q).2
        (fun o ho => hops o (List.mem_cons_of_mem _ ho))
      have : runOps m q (op :: ops) = runOps (op.apply m q).1 (op.apply m q).2 ops := rfl
      rw [this]
      exact ⟨h2.1.trans h1.1, h2.2.trans h1.2⟩
  obtain ⟨h1, h2⟩ := key ops m (p.Alias ptr_in length_in) h
  rw [h1]
  refine ⟨rfl, ?_⟩
  simp only [DensePoint.destroy, DensePoint.DestructPtr_, DensePoint.Alias]
  rw [if_neg (by simp)]
  exact h2

/-- **C9, the code at the failing input.**  A point aliased to the block at address 100
(two cells) receives `CopyValues` from a two-cell point at address 200: afterwards
`is_alias_` is false, and the destructor hands the aliased block to the deallocator. -/
theorem alias_then_CopyValues_frees_block :
    (runOps (⟨fun _ => 0, 1000, []⟩ : Memory Int)
        ((DensePoint.Reset ⟨0, 0, false⟩).Alias 100 2) [Op.CopyValues ⟨200, 2⟩]).2
      = ⟨100, 2, false⟩ ∧
    ((runOps (⟨fun _ => 0, 1000, []⟩ : Memory Int)
        ((DensePoint.Reset ⟨0, 0, false⟩).Alias 100 2) [Op.CopyValues ⟨200, 2⟩]).2.destroy
      (runOps (⟨fun _ => 0, 1000, []⟩ : Memory Int)
        ((DensePoint.Reset ⟨0, 0, false⟩).Alias 100 2) [Op.CopyValues ⟨200, 2⟩]).1).1.freed
      = [100] ∧
    (((DensePoint.Reset ⟨0, 0, false⟩).Alias 100 2).destroy
      (⟨fun _ => 0, 1000, []⟩ : Memory Int)).1.freed = [] := by
  refine ⟨rfl, rfl, rfl⟩

end core.table

/-! ## opt_ogd_k.h : theorems -/

namespace ogdk

theorem Learn_init_aux (L : Learner) :
    ∀ n, ((List.range n).foldl
        (fun acc t => { acc with t_state_ := acc.t_state_.set t 0,
                                 t_n_it_ := acc.t_n_it_.set t 0 }) L).t_state_.length
        = L.t_state_.length ∧
      ((List.range n).foldl
        (fun acc t => { acc with t_state_ := acc.t_state_.set t 0,
                                 t_n_it_ := acc.t_n_it_.set t 0 }) L).opt_name_ = L.opt_name_ ∧
      ((List.range n).foldl
        (fun acc t => { acc with t_state_ := acc.t_state_.set t 0,
                                 t_n_it_ := acc.t_n_it_.set t 0 }) L).mb_size_ = L.mb_size_ ∧
      ∀ t, t < n → t < L.t_state_.length →
        ((List.range n).foldl
          (fun acc t => { acc with t_state_ := acc.t_state_.set t 0,
                                   t_n_it_ := acc.t_n_it_.set t 0 }) L).t_state_[t]? = some 0
  | 0 => ⟨rfl, rfl, rfl, fun t ht => absurd ht (by omega)⟩
  | n + 1 => by
    obtain ⟨h1, h2, h3, h4⟩ := Learn_init_aux L n
    rw [List.range_succ, List.foldl_append]
    simp only [List.foldl_cons, List.foldl_nil, List.length_set]
    refine ⟨h1, h2, h3, ?_⟩
    intro t ht hlen
    by_cases htn : t = n
    · subst htn
      rw [List.getElem?_set_self (by rw [h1]; exact hlen)]
    · rw [List.getElem?_set_ne (fun e => htn e.symm)]
      exact h4 t (by omega) hlen

theorem Learn_init_state (L : Learner) (tid : Nat) (htid : tid < L.n_thread_)
    (hlen : tid < L.t_state_.length) :
    (Learn_init L).state tid = 0 ∧ (Learn_init L).t_state_.length = L.t_state_.length ∧
      (Learn_init L).opt_name_ = L.opt_name_ := by
  obtain ⟨h1, h2, -, h4⟩ := Learn_init_aux L L.n_thread_
  refine ⟨?_, h1, h2⟩
  unfold Learner.state Learn_init
  rw [List.getD_eq_getElem?_getD, h4 tid htid hlen]
  rfl

theorem readBatch_false (env : Env) :
    ∀ b calls c, readBatch env b calls = (false, c) →
      ∃ k, calls ≤ k ∧ k < calls + b ∧ env.example_read k = false
  | 0, calls, c, h => by simp [readBatch] at h
  | b + 1, calls, c, h => by
    unfold readBatch at h
    by_cases he : env.example_read calls = true
    · rw [if_pos he] at h
      obtain ⟨k, h1, h2, h3⟩ := readBatch_false env b (calls + 1) c h
      exact ⟨k, by omega, by omega, h3⟩
    · exact ⟨calls, Nat.le_refl _, by omega, by simpa using he⟩

end ogdk

namespace ogdk

theorem state_set (L : Learner) (tid v : Nat) (hlen : tid < L.t_state_.length)
    (n : List Nat) :
    ({ L with t_state_ := L.t_state_.set tid v, t_n_it_ := n } : Learner).state tid = v := by
  unfold Learner.state
  rw [List.getD_eq_getElem?_getD, List.getElem?_set_self hlen]
  rfl

theorem passFacts_of_state (env : Env) (tid : Nat) (L : Learner) (l : Local)
    (hlen : tid < L.t_state_.length)
    (hs : L.state tid = 0 ∨ L.state tid = 1 ∨ L.state tid = 2) :
    PassFacts env tid L l := by
  unfold PassFacts
  rcases hs with hs | hs | hs
  · have hs' : L.t_state_.getD tid 0 = 0 := hs
    have hit : OgdKThread_iter env tid L l =
        match readBatch env L.mb_size_ l.calls with
        | (false, calls) => .returned L { l with calls := calls }
        | (true, calls) =>
          .next { L with t_state_ := L.t_state_.set tid 1 } { l with calls := calls } := by
      unfold OgdKThread_iter
      rw [hs']
    rw [hit]
    rcases hrb : readBatch env L.mb_size_ l.calls with ⟨ok, c⟩
    cases ok with
    | false =>
      simp only
      refine ⟨fun _ _ h => (by cases h), fun _ _ _ => ⟨hs, ?_⟩, fun _ _ h => (by cases h),
        fun _ _ h => (by cases h), fun _ _ h => (by cases h)⟩
      exact readBatch_false env _ _ _ hrb
    | true =>
      simp only
      refine ⟨fun L2 l2 h => ?_, fun _ _ h => (by cases h), fun _ _ h => (by cases h),
        fun _ _ h => (by cases h), fun _ _ h => (by cases h)⟩
      cases h
      exact ⟨by simp, rfl, Or.inl ⟨hs, state_set L tid 1 hlen _⟩⟩
  · have hs' : L.t_state_.getD tid 0 = 1 := hs
    have hit : OgdKThread_iter env tid L l =
        if L.opt_name_ = "kogd_str" ∨ L.opt_name_ = "kogd" then
          if env.barrier_returns l.waits then
            .next { L with t_n_it_ := L.t_n_it_.set tid (L.t_n_it_.getD tid 0 + 1),
                           t_state_ := L.t_state_.set tid 2 } { l with waits := l.waits + 1 }
          else
            .blocked { L with t_n_it_ := L.t_n_it_.set tid (L.t_n_it_.getD tid 0 + 1) } l
        else
          .exited { L with t_n_it_ := L.t_n_it_.set tid (L.t_n_it_.getD tid 0 + 1) } l := by
      unfold OgdKThread_iter
      rw [hs']
    rw [hit]
    by_cases hn : L.opt_name_ = "kogd_str" ∨ L.opt_name_ = "kogd"
    · rw [if_pos hn]
      by_cases hb : env.barrier_returns l.waits = true
      · rw [if_pos hb]
        refine ⟨fun L2 l2 h => ?_, fun _ _ h => (by cases h), fun _ _ h => (by cases h),
          fun _ _ h => (by cases h), fun _ _ h => (by cases h)⟩
        cases h
        exact ⟨by simp, rfl, Or.inr (Or.inl ⟨hs, state_set L tid 2 hlen _⟩)⟩
      · rw [if_neg hb]
        exact ⟨fun _ _ h => (by cases h), fun _ _ h => (by cases h), fun _ _ h => (by cases h),
          fun _ _ _ => Or.inl hs, fun _ _ h => (by cases h)⟩
    · rw [if_neg hn]
      exact ⟨fun _ _ h => (by cases h), fun _ _ h => (by cases h), fun _ _ _ => ⟨hs, hn⟩,
        fun _ _ h => (by cases h), fun _ _ h => (by cases h)⟩
  · have hs' : L.t_state_.getD tid 0 = 2 := hs
    have hit : OgdKThread_iter env tid L l =
        if env.barrier_returns l.waits then
          .next { L with t_state_ := L.t_state_.set tid 0 } { l with waits := l.waits + 1 }
        else
          .blocked L l := by
      unfold OgdKThread_iter
      rw [hs']
    rw [hit]
    by_cases hb : env.barrier_returns l.waits = true
    · rw [if_pos hb]
      refine ⟨fun L2 l2 h => ?_, fun _ _ h => (by cases h), fun _ _ h => (by cases h),
        fun _ _ h => (by cases h), fun _ _ h => (by cases h)⟩
      cases h
      exact ⟨by simp, rfl, Or.inr (Or.inr ⟨hs, state_set L tid 0 hlen _⟩)⟩
    · rw [if_neg hb]
      exact ⟨fun _ _ h => (by cases h), fun _ _ h => (by cases h), fun _ _ h => (by cases h),
        fun _ _ _ => Or.inr hs, fun _ _ h => (by cases h)⟩

theorem run_invariant (env : Env) (tid : Nat) :
    ∀ (n : Nat) (L : Learner) (l : Local) (Ln : Learner) (ln : Local),
      tid < L.t_state_.length →
      (L.state tid = 0 ∨ L.state tid = 1 ∨ L.state tid = 2) →
      OgdKThread_run env tid n L l = some (Ln, ln) →
      Ln.t_state_.length = L.t_state_.length ∧ Ln.opt_name_ = L.opt_name_ ∧
        (Ln.state tid = 0 ∨ Ln.state tid = 1 ∨ Ln.state tid = 2)
  | 0, L, l, Ln, ln, _, hs, h => by
    simp only [OgdKThread_run, Option.some.injEq, Prod.mk.injEq] at h
    obtain ⟨rfl, rfl⟩ := h
    exact ⟨rfl, rfl, hs⟩
  | n + 1, L, l, Ln, ln, hlen, hs, h => by
    have hp := passFacts_of_state env tid L l hlen hs
    unfold OgdKThread_run at h
    cases hit : OgdKThread_iter env tid L l with
    | next L2 l2 =>
      rw [hit] at h
      obtain ⟨hl2, ho2, htr⟩ := hp.1 L2 l2 hit
      have hs2 : L2.state tid = 0 ∨ L2.state tid = 1 ∨ L2.state tid = 2 := by
        rcases htr with ⟨_, h2⟩ | ⟨_, h2⟩ | ⟨_, h2⟩
        · exact Or.inr (Or.inl h2)
        · exact Or.inr (Or.inr h2)
        · exact Or.inl h2
      obtain ⟨a, b, c⟩ := run_invariant env tid n L2 l2 Ln ln (by rw [hl2]; exact hlen) hs2 h
      exact ⟨a.trans hl2, b.trans ho2, c⟩
    | returned L2 l2 => rw [hit] at h; cases h
    | exited L2 l2 => rw [hit] at h; cases h
    | blocked L2 l2 => rw [hit] at h; cases h
    | unknownState L2 l2 => rw [hit] at h; cases h

/-- Single-worker view.  One thread, mini-batches of one example, a method name that
is neither "kogd_str" nor "kogd", examples always available.  Started by `Learn` in state
0, the thread moves to state 1 and its next pass ends in `exit(1)`: its execution ends
from state 1, with examples still available. -/
theorem OgdKThread_ends_in_state_one :
    OgdKThread_run ⟨fun _ => true, fun _ => true⟩ 0 1
        (Learn_init ⟨1, 1, "ogd", [5], [5]⟩) ⟨0, 0⟩
      = some (⟨1, 1, "ogd", [1], [0]⟩, ⟨1, 0⟩) ∧
    OgdKThread_iter ⟨fun _ => true, fun _ => true⟩ 0 ⟨1, 1, "ogd", [1], [0]⟩ ⟨1, 0⟩
      = .exited ⟨1, 1, "ogd", [1], [1]⟩ ⟨1, 0⟩ := by
  constructor <;> decide

/-- Single-worker view, with the other workers left out.  For a thread `tid` started by
`Learn`, after any number of passes of its own loop: its state is 0, 1 or 2; a completed
pass changes the state by one of 0->1, 1->2, 2->0; a pass ends in `return` only from state
0 after a `GetImmedExample` call found no example; a pass ends in `exit(1)` only in state 1
when the method name is neither "kogd_str" nor "kogd"; a thread held at a barrier is in
state 1 or 2; and the "Unknown thread state number" branch is not reached. -/
theorem OgdKThread_three_phase (env : Env) (L : Learner) (tid : Nat)
    (htid : tid < L.n_thread_) (hlen : tid < L.t_state_.length)
    (n : Nat) (Ln : Learner) (ln : Local)
    (hrun : OgdKThread_run env tid n (Learn_init L) ⟨0, 0⟩ = some (Ln, ln)) :
    (Learn_init L).state tid = 0 ∧
    (Ln.state tid = 0 ∨ Ln.state tid = 1 ∨ Ln.state tid = 2) ∧
    (∀ L2 l2, OgdKThread_iter env tid Ln ln = .next L2 l2 →
      (Ln.state tid = 0 ∧ L2.state tid = 1) ∨ (Ln.state tid = 1 ∧ L2.state tid = 2) ∨
        (Ln.state tid = 2 ∧ L2.state tid = 0)) ∧
    (∀ L2 l2, OgdKThread_iter env tid Ln ln = .returned L2 l2 →
      Ln.state tid = 0 ∧
      ∃ c, ln.calls ≤ c ∧ c < ln.calls + Ln.mb_size_ ∧ env.example_read c = false) ∧
    (∀ L2 l2, OgdKThread_iter env tid Ln ln = .exited L2 l2 →
      Ln.state tid = 1 ∧ ¬ (L.opt_name_ = "kogd_str" ∨ L.opt_name_ = "kogd")) ∧
    (∀ L2 l2, OgdKThread_iter env tid Ln ln = .blocked L2 l2 →
      Ln.state tid = 1 ∨ Ln.state tid = 2) ∧
    (∀ L2 l2, OgdKThread_iter env tid Ln ln ≠ .unknownState L2 l2) := by
  obtain ⟨h0, hl0, ho0⟩ := Learn_init_state L tid htid hlen
  obtain ⟨hl, ho, hs⟩ := run_invariant env tid n (Learn_init L) ⟨0, 0⟩ Ln ln
    (by rw [hl0]; exact hlen) (Or.inl h0) hrun
  obtain ⟨p1, p2, p3, p4, p5⟩ := passFacts_of_state env tid Ln ln
    (by rw [hl, hl0]; exact hlen) hs
  refine ⟨h0, hs, fun L2 l2 h => (p1 L2 l2 h).2.2, p2, ?_, p4, p5⟩
  intro L2 l2 h
  have := p3 L2 l2 h
  rw [ho, ho0] at this
  exact this

/-- Instance of the single-worker view: two threads, thread 1 after three passes. -/
theorem OgdKThread_three_phase_witness :
    (Learn_init ⟨2, 1, "kogd", [9, 9], [9, 9]⟩).state 1 = 0 ∧
    ((⟨2, 1, "kogd", [0, 0], [0, 1]⟩ : Learner).state 1 = 0 ∨
      (⟨2, 1, "kogd", [0, 0], [0, 1]⟩ : Learner).state 1 = 1 ∨
      (⟨2, 1, "kogd", [0, 0], [0, 1]⟩ : Learner).state 1 = 2) ∧
    (∀ L2 l2, OgdKThread_iter ⟨fun c => decide (c < 1), fun _ => true⟩ 1
        ⟨2, 1, "kogd", [0, 0], [0, 1]⟩ ⟨1, 2⟩ = .next L2 l2 →
      ((⟨2, 1, "kogd", [0, 0], [0, 1]⟩ : Learner).state 1 = 0 ∧ L2.state 1 = 1) ∨
        ((⟨2, 1, "kogd", [0, 0], [0, 1]⟩ : Learner).state 1 = 1 ∧ L2.state 1 = 2) ∨
        ((⟨2, 1, "kogd", [0, 0], [0, 1]⟩ : Learner).state 1 = 2 ∧ L2.state 1 = 0)) ∧
    (∀ L2 l2, OgdKThread_iter ⟨fun c => decide (c < 1), fun _ => true⟩ 1
        ⟨2, 1, "kogd", [0, 0], [0, 1]⟩ ⟨1, 2⟩ = .returned L2 l2 →
      (⟨2, 1, "kogd", [0, 0], [0, 1]⟩ : Learner).state 1 = 0 ∧
      ∃ c, (⟨1, 2⟩ : Local).calls ≤ c ∧
        c < (⟨1, 2⟩ : Local).calls + (⟨2, 1, "kogd", [0, 0], [0, 1]⟩ : Learner).mb_size_ ∧
        (⟨fun c => decide (c < 1), fun _ => true⟩ : Env).example_read c = false) ∧
    (∀ L2 l2, OgdKThread_iter ⟨fun c => decide (c < 1), fun _ => true⟩ 1
        ⟨2, 1, "kogd", [0, 0], [0, 1]⟩ ⟨1, 2⟩ = .exited L2 l2 →
      (⟨2, 1, "kogd", [0, 0], [0, 1]⟩ : Learner).state 1 = 1 ∧
      ¬ ((⟨2, 1, "kogd", [9, 9], [9, 9]⟩ : Learner).opt_name_ = "kogd_str" ∨
        (⟨2, 1, "kogd", [9, 9], [9, 9]⟩ : Learner).opt_name_ = "kogd")) ∧
    (∀ L2 l2, OgdKThread_iter ⟨fun c => decide (c < 1), fun _ => true⟩ 1
        ⟨2, 1, "kogd", [0, 0], [0, 1]⟩ ⟨1, 2⟩ = .blocked L2 l2 →
      (⟨2, 1, "kogd", [0, 0], [0, 1]⟩ : Learner).state 1 = 1 ∨
      (⟨2, 1, "kogd", [0, 0], [0, 1]⟩ : Learner).state 1 = 2) ∧
    (∀ L2 l2, OgdKThread_iter ⟨fun c => decide (c < 1), fun _ => true⟩ 1
        ⟨2, 1, "kogd", [0, 0], [0, 1]⟩ ⟨1, 2⟩ ≠ .unknownState L2 l2) :=
  OgdKThread_three_phase ⟨fun c => decide (c < 1), fun _ => true⟩
    ⟨2, 1, "kogd", [9, 9], [9, 9]⟩ 1 (by decide) (by decide) 3
    ⟨2, 1, "kogd", [0, 0], [0, 1]⟩ ⟨1, 2⟩ (by decide)

end ogdk

/-! ## gen_metric_tree.h : omitted mapping arrays -/

namespace proximity

theorem fillNewFromOld_none (n : Nat) (hn : 0 < n) :
    fillNewFromOld none n = Except.error Fault.NullDereference := by
  obtain ⟨m, rfl⟩ : ∃ m, n = m + 1 := ⟨n - 1, by omega⟩
  unfold fillNewFromOld
  rw [List.range_succ_eq_map, List.foldlM_cons]
  rfl

/-- With `old_from_new` omitted and `new_from_old` supplied, whenever the partitioning step
leaves the null pointer null and the matrix has at least one column, the closing loop reads
`(*old_from_new)[0]` through the null pointer. -/
theorem MakeGenMetricTree_reads_absent_old_from_new {α : Type} (split : SplitFn α)
    (matrix : Matrix α) (leaf_size : Int)
    (hnull : (split matrix ((TMetricTree.new.Init 0 matrix.n_cols).centerInit matrix.n_rows)
      leaf_size none).old_from_new = none)
    (hN : 0 < (split matrix ((TMetricTree.new.Init 0 matrix.n_cols).centerInit matrix.n_rows)
      leaf_size none).matrix.n_cols) :
    MakeGenMetricTree split matrix leaf_size false true
      = Except.error Fault.NullDereference := by
  unfold MakeGenMetricTree
  simp only [Bool.false_eq_true, if_false, if_true, hnull, fillNewFromOld_none _ hN]

/-- **C11, the code at the failing input.**  Two points, `leaf_size = 1`, `old_from_new`
omitted and `new_from_old` supplied: the closing loop dereferences the absent
`old_from_new` and no mapping is produced.  The three other combinations of supplied and
omitted arrays return a node on the same matrix. -/
theorem MakeGenMetricTree_new_from_old_alone_faults :
    MakeGenMetricTree (splitBySwaps [(0, 1)]) (⟨1, [[7], [8]]⟩ : Matrix Int) 1 false true
      = Except.error Fault.NullDereference ∧
    MakeGenMetricTree (splitBySwaps [(0, 1)]) (⟨1, [[7], [8]]⟩ : Matrix Int) 1 false false
      = Except.ok ⟨.leaf 0 2 1, ⟨1, [[8], [7]]⟩, none, none⟩ ∧
    MakeGenMetricTree (splitBySwaps [(0, 1)]) (⟨1, [[7], [8]]⟩ : Matrix Int) 1 true false
      = Except.ok ⟨.leaf 0 2 1, ⟨1, [[8], [7]]⟩, some [1, 0], none⟩ ∧
    MakeGenMetricTree (splitBySwaps [(0, 1)]) (⟨1, [[7], [8]]⟩ : Matrix Int) 1 true true
      = Except.ok ⟨.leaf 0 2 1, ⟨1, [[8], [7]]⟩, some [1, 0], some [1, 0]⟩ := by
  refine ⟨rfl, rfl, rfl, rfl⟩

end proximity

/-! ## opt_ogd_k.h : the workers of one process -/

namespace ogdk

theorem state_set_ne (L : Learner) (tid t v : Nat) (h : t ≠ tid) (n : List Nat) :
    ({ L with t_state_ := L.t_state_.set tid v, t_n_it_ := n } : Learner).state t
      = L.state t := by
  unfold Learner.state
  rw [List.getD_eq_getElem?_getD, List.getD_eq_getElem?_getD,
    List.getElem?_set_ne (fun e => h e.symm)]

/-- A pass of worker `tid` leaves the length of the state array, the method name and the
state of every other worker as they are, and changes its own state only if it completes. -/
theorem iter_frame (env : Env) (tid : Nat) (L : Learner) (l : Local) :
    (OgdKThread_iter env tid L l).learner.t_state_.length = L.t_state_.length ∧
    (OgdKThread_iter env tid L l).learner.opt_name_ = L.opt_name_ ∧
    (∀ t, t ≠ tid → (OgdKThread_iter env tid L l).learner.state t = L.state t) ∧
    ((∀ L2 l2, OgdKThread_iter env tid L l ≠ .next L2 l2) →
      (OgdKThread_iter env tid L l).learner.state tid = L.state tid) := by
  unfold OgdKThread_iter
  split
  · rcases readBatch env L.mb_size_ l.calls with ⟨ok, c⟩
    cases ok with
    | false => exact ⟨rfl, rfl, fun _ _ => rfl, fun _ => rfl⟩
    | true =>
      refine ⟨by simp [Outcome.learner], rfl, fun t ht => state_set_ne L tid t 1 ht _, ?_⟩
      intro h
      exact absurd rfl (h _ _)
  · simp only
    split
    · split
      · refine ⟨by simp [Outcome.learner], rfl, fun t ht => state_set_ne L tid t 2 ht _, ?_⟩
        intro h
        exact absurd rfl (h _ _)
      · exact ⟨rfl, rfl, fun _ _ => rfl, fun _ => rfl⟩
    · exact ⟨rfl, rfl, fun _ _ => rfl, fun _ => rfl⟩
  · split
    · refine ⟨by simp [Outcome.learner], rfl, fun t ht => state_set_ne L tid t 0 ht _, ?_⟩
      intro h
      exact absurd rfl (h _ _)
    · exact ⟨rfl, rfl, fun _ _ => rfl, fun _ => rfl⟩
  · exact ⟨rfl, rfl, fun _ _ => rfl, fun _ => rfl⟩

end ogdk

namespace ogdk

theorem readBatch_false_last (env : Env) :
    ∀ b calls c, readBatch env b calls = (false, c) →
      ∃ k, c = k + 1 ∧ calls ≤ k ∧ env.example_read k = false
  | 0, calls, c, h => by simp [readBatch] at h
  | b + 1, calls, c, h => by
    unfold readBatch at h
    by_cases he : env.example_read calls = true
    · rw [if_pos he] at h
      obtain ⟨k, h1, h2, h3⟩ := readBatch_false_last env b (calls + 1) c h
      exact ⟨k, h1, by omega, h3⟩
    · rw [if_neg he] at h
      simp only [Prod.mk.injEq, true_and] at h
      exact ⟨calls, h.symm, Nat.le_refl _, by simpa using he⟩

/-- A pass that ends in `return` has just made a `GetImmedExample` call that found no
example. -/
theorem iter_returned_call (env : Env) (tid : Nat) (L : Learner) (l : Local)
    (L2 : Learner) (l2 : Local) (h : OgdKThread_iter env tid L l = .returned L2 l2) :
    ∃ c, c < l2.calls ∧ env.example_read c = false := by
  unfold OgdKThread_iter at h
  split at h
  · rcases hrb : readBatch env L.mb_size_ l.calls with ⟨ok, c⟩
    rw [hrb] at h
    cases ok with
    | false =>
      simp only [Outcome.returned.injEq] at h
      obtain ⟨k, hk, -, hr⟩ := readBatch_false_last env _ _ _ hrb
      refine ⟨k, ?_, hr⟩
      rw [← h.2]
      show k < c
      omega
    | true => cases h
  · simp only at h
    split at h
    · split at h <;> cases h
    · cases h
  · split at h <;> cases h
  · cases h

/-- Re-establishing the invariant after worker `tid`, which was in its loop, has made a
pass that left the shared fields as `L2`, its bookkeeping as `l2` and its standing as
`st`. -/
theorem worldInv_update (envs : Nat → Env) (L0 : Learner) (W : World) (tid : Nat)
    (hInv : WorldInv envs L0 W)
    (L2 : Learner) (l2 : Local) (S2 : List Status) (st : Status) (ex : Option Nat)
    (htid : tid < W.locals.length)
    (hS2len : S2.length = W.status.length)
    (hS2self : S2[tid]? = some st)
    (hS2other : ∀ t : Nat, t ≠ tid → S2[t]? = W.status[t]?)
    (hlenL : L2.t_state_.length = W.L.t_state_.length)
    (hopt : L2.opt_name_ = W.L.opt_name_)
    (hrange : L2.state tid = 0 ∨ L2.state tid = 1 ∨ L2.state tid = 2)
    (hother : ∀ t, t ≠ tid → L2.state t = W.L.state t)
    (hst : st ≠ Status.unknownState)
    (hret : st = Status.returned →
      L2.state tid = 0 ∧ ∃ c, c < l2.calls ∧ (envs tid).example_read c = false)
    (hblk : st = Status.blocked → L2.state tid = 1 ∨ L2.state tid = 2)
    (hexit : ∀ t : Nat, ex = some t →
      t < L0.n_thread_ ∧ L2.state t = 1 ∧
      ¬ (L0.opt_name_ = "kogd_str" ∨ L0.opt_name_ = "kogd")) :
    WorldInv envs L0 ⟨L2, W.locals.set tid l2, S2, ex⟩ := by
  obtain ⟨i1, i2, i3, i4, i5, i6, i7, _⟩ := hInv
  refine ⟨hlenL.trans i1, hopt.trans i2,
    ⟨hS2len.trans i3.1, (List.length_set _ _ _).trans i3.2⟩, ?_, ?_, ?_, ?_, hexit⟩
  · intro t ht
    by_cases h : t = tid
    · subst h; exact hrange
    · show L2.state t = 0 ∨ L2.state t = 1 ∨ L2.state t = 2
      rw [hother t h]; exact i4 t ht
  · intro t
    show S2[t]? ≠ some Status.unknownState
    by_cases h : t = tid
    · subst h; rw [hS2self]; exact fun e => hst (Option.some.inj e)
    · rw [hS2other t h]; exact i5 t
  · intro t hs
    have hs : S2[t]? = some Status.returned := hs
    show L2.state t = 0 ∧
      ∃ c, c < ((W.locals.set tid l2).getD t ⟨0, 0⟩).calls ∧ (envs t).example_read c = false
    by_cases h : t = tid
    · subst h
      rw [hS2self] at hs
      rw [List.getD_eq_getElem?_getD, List.getElem?_set_self htid]
      exact hret (Option.some.inj hs)
    · rw [hS2other t h] at hs
      rw [hother t h, List.getD_eq_getElem?_getD, List.getElem?_set_ne (fun e => h e.symm),
        ← List.getD_eq_getElem?_getD]
      exact i6 t hs
  · intro t hs
    have hs : S2[t]? = some Status.blocked := hs
    show L2.state t = 1 ∨ L2.state t = 2
    by_cases h : t = tid
    · subst h
      rw [hS2self] at hs
      exact hblk (Option.some.inj hs)
    · rw [hS2other t h] at hs
      rw [hother t h]
      exact i7 t hs

theorem getElem?_set_status (S : List Status) (tid : Nat) (st : Status) (h : tid < S.length) :
    (S.set tid st).length = S.length ∧ (S.set tid st)[tid]? = some st ∧
      ∀ t : Nat, t ≠ tid → (S.set tid st)[t]? = S[t]? :=
  ⟨List.length_set _ _ _, List.getElem?_set_self h,
    fun _ ht => List.getElem?_set_ne (fun e => ht e.symm)⟩

/-- One scheduled pass keeps the invariant, and changes worker states only by one of the
three transitions of the scheduled worker. -/
theorem worldStep_spec (envs : Nat → Env) (L0 : Learner)
    (hlen : L0.n_thread_ ≤ L0.t_state_.length) (tid : Nat) (W : World)
    (hInv : WorldInv envs L0 W) :
    WorldInv envs L0 (worldStep envs tid W) ∧
    ∀ t, (worldStep envs tid W).L.state t = W.L.state t ∨
      (t = tid ∧ W.exited = none ∧ W.status[tid]? = some Status.running ∧
        ((W.L.state t = 0 ∧ (worldStep envs tid W).L.state t = 1) ∨
         (W.L.state t = 1 ∧ (worldStep envs tid W).L.state t = 2) ∨
         (W.L.state t = 2 ∧ (worldStep envs tid W).L.state t = 0))) := by
  unfold worldStep
  cases hex : W.exited with
  | some e => exact ⟨hInv, fun _ => Or.inl rfl⟩
  | none =>
    simp only
    cases hst : W.status[tid]? with
    | none => exact ⟨hInv, fun _ => Or.inl rfl⟩
    | some s =>
      cases s with
      | returned => exact ⟨hInv, fun _ => Or.inl rfl⟩
      | blocked => exact ⟨hInv, fun _ => Or.inl rfl⟩
      | unknownState => exact ⟨hInv, fun _ => Or.inl rfl⟩
      | running =>
        simp only
        have hInv' := hInv
        obtain ⟨i1, i2, i3, i4, -, -, -, -⟩ := hInv'
        have htS : tid < W.status.length := by
          by_contra hc
          rw [List.getElem?_eq_none (by omega)] at hst
          cases hst
        have htn : tid < L0.n_thread_ := by omega
        have htl : tid < W.locals.length := by omega
        have htL : tid < W.L.t_state_.length := by omega
        have hs := i4 tid htn
        obtain ⟨p1, p2, p3, p4, p5⟩ :=
          passFacts_of_state (envs tid) tid W.L (W.locals.getD tid ⟨0, 0⟩) htL hs
        obtain ⟨f1, f2, f3, f4⟩ := iter_frame (envs tid) tid W.L (W.locals.getD tid ⟨0, 0⟩)
        cases hit : OgdKThread_iter (envs tid) tid W.L (W.locals.getD tid ⟨0, 0⟩) with
        | next L2 l2 =>
          rw [hit] at f1 f2 f3
          obtain ⟨-, -, htr⟩ := p1 L2 l2 hit
          have hr2 : L2.state tid = 0 ∨ L2.state tid = 1 ∨ L2.state tid = 2 := by
            rcases htr with ⟨_, h⟩ | ⟨_, h⟩ | ⟨_, h⟩
            · exact Or.inr (Or.inl h)
            · exact Or.inr (Or.inr h)
            · exact Or.inl h
          refine ⟨worldInv_update envs L0 W tid hInv L2 l2 W.status Status.running none htl
            rfl hst (fun _ _ => rfl) f1 f2 hr2 f3 (by decide) (fun h => by cases h)
            (fun h => by cases h) (fun _ h => by cases h), ?_⟩
          intro t
          by_cases h : t = tid
          · subst h; exact Or.inr ⟨rfl, trivial, trivial, htr⟩
          · exact Or.inl (f3 t h)
        | returned L2 l2 =>
          rw [hit] at f1 f2 f3 f4
          have hsame : L2.state tid = W.L.state tid := f4 (fun _ _ h => by cases h)
          obtain ⟨h0, -⟩ := p2 L2 l2 hit
          have hcall := iter_returned_call (envs tid) tid W.L _ L2 l2 hit
          obtain ⟨s1, s2, s3⟩ := getElem?_set_status W.status tid Status.returned htS
          refine ⟨worldInv_update envs L0 W tid hInv L2 l2 _ Status.returned none htl
            s1 s2 s3 f1 f2 (by rw [hsame]; exact hs) f3 (by decide)
            (fun _ => ⟨hsame.trans h0, hcall⟩) (fun h => by cases h)
            (fun _ h => by cases h), ?_⟩
          intro t
          by_cases h : t = tid
          · subst h; exact Or.inl hsame
          · exact Or.inl (f3 t h)
        | exited L2 l2 =>
          rw [hit] at f1 f2 f3 f4
          have hsame : L2.state tid = W.L.state tid := f4 (fun _ _ h => by cases h)
          obtain ⟨h1, hbad⟩ := p3 L2 l2 hit
          refine ⟨worldInv_update envs L0 W tid hInv L2 l2 W.status Status.running
            (some tid) htl rfl hst (fun _ _ => rfl) f1 f2 (by rw [hsame]; exact hs) f3
            (by decide) (fun h => by cases h) (fun h => by cases h) ?_, ?_⟩
          · intro t ht
            cases ht
            exact ⟨htn, hsame.trans h1, by rw [← i2]; exact hbad⟩
          · intro t
            by_cases h : t = tid
            · subst h; exact Or.inl hsame
            · exact Or.inl (f3 t h)
        | blocked L2 l2 =>
          rw [hit] at f1 f2 f3 f4
          have hsame : L2.state tid = W.L.state tid := f4 (fun _ _ h => by cases h)
          have hb := p4 L2 l2 hit
          obtain ⟨s1, s2, s3⟩ := getElem?_set_status W.status tid Status.blocked htS
          refine ⟨worldInv_update envs L0 W tid hInv L2 l2 _ Status.blocked none htl
            s1 s2 s3 f1 f2 (by rw [hsame]; exact hs) f3 (by decide)
            (fun h => by cases h) (fun _ => by rw [hsame]; exact hb)
            (fun _ h => by cases h), ?_⟩
          intro t
          by_cases h : t = tid
          · subst h; exact Or.inl hsame
          · exact Or.inl (f3 t h)
        | unknownState L2 l2 => exact absurd hit (p5 L2 l2)

theorem runWorld_inv (envs : Nat → Env) (L0 : Learner)
    (hlen : L0.n_thread_ ≤ L0.t_state_.length) :
    ∀ (schedule : List Nat) (W : World), WorldInv envs L0 W →
      WorldInv envs L0 (runWorld envs schedule W)
  | [], _, h => h
  | tid :: rest, W, h =>
    runWorld_inv envs L0 hlen rest (worldStep envs tid W)
      (worldStep_spec envs L0 hlen tid W h).1

theorem Learn_world_inv (envs : Nat → Env) (L : Learner)
    (hlen : L.n_thread_ ≤ L.t_state_.length) :
    WorldInv envs L (Learn_world L) ∧ ∀ t, t < L.n_thread_ → (Learn_world L).L.state t = 0 := by
  have h0 : ∀ t, t < L.n_thread_ → (Learn_init L).state t = 0 :=
    fun t ht => (Learn_init_state L t ht (by omega)).1
  have hst : ∀ (t : Nat) (s : Status),
      (List.replicate L.n_thread_ Status.running)[t]? = some s → s = Status.running := by
    intro t s h
    have := List.getElem?_mem h
    exact (List.mem_replicate.1 this).2
  obtain ⟨a1, a2, -, -⟩ := Learn_init_aux L L.n_thread_
  refine ⟨⟨a1, a2, by simp [Learn_world], fun t ht => Or.inl (h0 t ht), ?_, ?_, ?_, ?_⟩, h0⟩
  · intro t h
    exact absurd (hst t _ h) (by decide)
  · intro t h
    exact absurd (hst t _ h) (by decide)
  · intro t h
    exact absurd (hst t _ h) (by decide)
  · intro t h
    cases h

end ogdk

namespace ogdk

/-- **C10, counterexample.**  Two workers, mini-batches of one example, a method name that
is neither "kogd_str" nor "kogd", every `GetImmedExample` call finds an example.  Worker 0
is scheduled twice: it moves from state 0 to state 1 and then calls `exit(1)`.  The process
ends with worker 0 in state 1 and worker 1 in state 0; neither has returned, and examples
are still available to both. -/
theorem OGDK_exit_ends_workers_outside_state_zero :
    runWorld (fun _ => ⟨fun _ => true, fun _ => true⟩) [0, 0]
        (Learn_world ⟨2, 1, "ogd", [5, 5], [5, 5]⟩)
      = ⟨⟨2, 1, "ogd", [1, 0], [1, 0]⟩, [⟨1, 0⟩, ⟨0, 0⟩],
          [Status.running, Status.running], some 0⟩ := by
  decide

/-- **C10, amended.**  For the workers started by `Learn` (each in state 0), under any
schedule of their passes: every worker's state is 0, 1 or 2; a pass changes no state but
that of the scheduled worker, and that one only by 0->1, 1->2 or 2->0; a worker that has
returned from `OgdKThread` did so in state 0 after one of its `GetImmedExample` calls found
no example; the only other way executions end is the process-wide `exit(1)`, which is
called only by a worker in state 1 when the method name is neither "kogd_str" nor "kogd",
and after which no worker runs, whatever state it is in; a worker held at a barrier is in
state 1 or 2; and no worker takes the "Unknown thread state number" branch. -/
theorem OGDK_workers_three_phase (envs : Nat → Env) (L : Learner)
    (hlen : L.n_thread_ ≤ L.t_state_.length) (schedule : List Nat) (tid : Nat) :
    (∀ t, t < L.n_thread_ → (Learn_world L).L.state t = 0) ∧
    (∀ t, t < L.n_thread_ →
      ((runWorld envs schedule (Learn_world L)).L.state t = 0 ∨
       (runWorld envs schedule (Learn_world L)).L.state t = 1 ∨
       (runWorld envs schedule (Learn_world L)).L.state t = 2)) ∧
    (∀ t, (worldStep envs tid (runWorld envs schedule (Learn_world L))).L.state t
        = (runWorld envs schedule (Learn_world L)).L.state t ∨
      (t = tid ∧ (runWorld envs schedule (Learn_world L)).exited = none ∧
        (runWorld envs schedule (Learn_world L)).status[tid]? = some Status.running ∧
        (((runWorld envs schedule (Learn_world L)).L.state t = 0 ∧
            (worldStep envs tid (runWorld envs schedule (Learn_world L))).L.state t = 1) ∨
         ((runWorld envs schedule (Learn_world L)).L.state t = 1 ∧
            (worldStep envs tid (runWorld envs schedule (Learn_world L))).L.state t = 2) ∨
         ((runWorld envs schedule (Learn_world L)).L.state t = 2 ∧
            (worldStep envs tid (runWorld envs schedule (Learn_world L))).L.state t = 0)))) ∧
    (∀ t : Nat, (runWorld envs schedule (Learn_world L)).status[t]? = some Status.returned →
      (runWorld envs schedule (Learn_world L)).L.state t = 0 ∧
      ∃ c, c < ((runWorld envs schedule (Learn_world L)).locals.getD t ⟨0, 0⟩).calls ∧
        (envs t).example_read c = false) ∧
    (∀ t : Nat, (runWorld envs schedule (Learn_world L)).exited = some t →
      t < L.n_thread_ ∧ (runWorld envs schedule (Learn_world L)).L.state t = 1 ∧
      ¬ (L.opt_name_ = "kogd_str" ∨ L.opt_name_ = "kogd") ∧
      worldStep envs tid (runWorld envs schedule (Learn_world L))
        = runWorld envs schedule (Learn_world L)) ∧
    (∀ t : Nat, (runWorld envs schedule (Learn_world L)).status[t]? = some Status.blocked →
      (runWorld envs schedule (Learn_world L)).L.state t = 1 ∨
      (runWorld envs schedule (Learn_world L)).L.state t = 2) ∧
    (∀ t : Nat, (runWorld envs schedule (Learn_world L)).status[t]?
      ≠ some Status.unknownState) := by
  obtain ⟨hinit, h0⟩ := Learn_world_inv envs L hlen
  have hInv := runWorld_inv envs L hlen schedule (Learn_world L) hinit
  have hstep := (worldStep_spec envs L hlen tid _ hInv).2
  obtain ⟨-, -, -, i4, i5, i6, i7, i8⟩ := hInv
  refine ⟨h0, i4, hstep, i6, ?_, i7, i5⟩
  intro t ht
  obtain ⟨a, b, c⟩ := i8 t ht
  refine ⟨a, b, c, ?_⟩
  unfold worldStep
  rw [ht]

/-- Runs of two workers under the method "kogd": after the passes of workers 0, 1, 1, 0
both are in state 2, and the next pass of worker 1 takes it to state 0; after four passes
of worker 0 alone it has returned in state 0, its second `GetImmedExample` call having
found no example, while worker 1 is still in its loop. -/
theorem OGDK_two_workers_run :
    runWorld sampleEnvs [0, 1, 1, 0] (Learn_world sampleLearner)
      = ⟨⟨2, 1, "kogd", [2, 2], [1, 1]⟩, [⟨1, 1⟩, ⟨1, 1⟩],
          [Status.running, Status.running], none⟩ ∧
    (worldStep sampleEnvs 1
        (runWorld sampleEnvs [0, 1, 1, 0] (Learn_world sampleLearner))).L.state 1 = 0 ∧
    runWorld sampleEnvs [0, 0, 0, 0] (Learn_world sampleLearner)
      = ⟨⟨2, 1, "kogd", [0, 0], [1, 0]⟩, [⟨2, 2⟩, ⟨0, 0⟩],
          [Status.returned, Status.running], none⟩ := by
  refine ⟨?_, ?_, ?_⟩ <;> decide

/-- Instance of the amended C10: two workers under the method "kogd", the passes of workers
0, 1, 1, 0, then a pass of worker 1. -/
theorem OGDK_workers_three_phase_witness :
    sampleLearner.n_thread_ ≤ sampleLearner.t_state_.length ∧
    ((∀ t, t < sampleLearner.n_thread_ → (Learn_world sampleLearner).L.state t = 0) ∧
    (∀ t, t < sampleLearner.n_thread_ →
      ((runWorld sampleEnvs [0, 1, 1, 0]
        (Learn_world sampleLearner)).L.state t = 0 ∨
       (runWorld sampleEnvs [0, 1, 1, 0]
        (Learn_world sampleLearner)).L.state t = 1 ∨
       (runWorld sampleEnvs [0, 1, 1, 0]
        (Learn_world sampleLearner)).L.state t = 2)) ∧
    (∀ t, (worldStep sampleEnvs 1 (runWorld sampleEnvs [0, 1, 1, 0]
        (Learn_world sampleLearner))).L.state t
        = (runWorld sampleEnvs [0, 1, 1, 0]
        (Learn_world sampleLearner)).L.state t ∨
      (t = 1 ∧ (runWorld sampleEnvs [0, 1, 1, 0]
        (Learn_world sampleLearner)).exited = none ∧
        (runWorld sampleEnvs [0, 1, 1, 0]
        (Learn_world sampleLearner)).status[1]? = some Status.running ∧
        (((runWorld sampleEnvs [0, 1, 1, 0]
        (Learn_world sampleLearner)).L.state t = 0 ∧
            (worldStep sampleEnvs 1 (runWorld sampleEnvs [0, 1, 1, 0]
        (Learn_world sampleLearner))).L.state t = 1) ∨
         ((runWorld sampleEnvs [0, 1, 1, 0]
        (Learn_world sampleLearner)).L.state t = 1 ∧
            (worldStep sampleEnvs 1 (runWorld sampleEnvs [0, 1, 1, 0]
        (Learn_world sampleLearner))).L.state t = 2) ∨
         ((runWorld sampleEnvs [0, 1, 1, 0]
        (Learn_world sampleLearner)).L.state t = 2 ∧
            (worldStep sampleEnvs 1 (runWorld sampleEnvs [0, 1, 1, 0]
        (Learn_world sampleLearner))).L.state t = 0)))) ∧
    (∀ t : Nat, (runWorld sampleEnvs [0, 1, 1, 0]
        (Learn_world sampleLearner)).status[t]? = some Status.returned →
      (runWorld sampleEnvs [0, 1, 1, 0]
        (Learn_world sampleLearner)).L.state t = 0 ∧
      ∃ c, c < ((runWorld sampleEnvs [0, 1, 1, 0]
        (Learn_world sampleLearner)).locals.getD t ⟨0, 0⟩).calls ∧
        (sampleEnvs t).example_read c = false) ∧
    (∀ t : Nat, (runWorld sampleEnvs [0, 1, 1, 0]
        (Learn_world sampleLearner)).exited = some t →
      t < sampleLearner.n_thread_ ∧ (runWorld sampleEnvs [0, 1, 1, 0]
        (Learn_world sampleLearner)).L.state t = 1 ∧
      ¬ (sampleLearner.opt_name_ = "kogd_str" ∨ sampleLearner.opt_name_ = "kogd") ∧
      worldStep sampleEnvs 1 (runWorld sampleEnvs [0, 1, 1, 0]
        (Learn_world sampleLearner))
        = runWorld sampleEnvs [0, 1, 1, 0] (Learn_world sampleLearner)) ∧
    (∀ t : Nat, (runWorld sampleEnvs [0, 1, 1, 0]
        (Learn_world sampleLearner)).status[t]? = some Status.blocked →
      (runWorld sampleEnvs [0, 1, 1, 0]
        (Learn_world sampleLearner)).L.state t = 1 ∨
      (runWorld sampleEnvs [0, 1, 1, 0]
        (Learn_world sampleLearner)).L.state t = 2) ∧
    (∀ t : Nat, (runWorld sampleEnvs [0, 1, 1, 0]
        (Learn_world sampleLearner)).status[t]?
      ≠ some Status.unknownState)) :=
  ⟨by decide, OGDK_workers_three_phase sampleEnvs sampleLearner (by decide) [0, 1, 1, 0] 1⟩

end ogdk
